import Mathlib

/-!
Verification of the seqo library (src/seqo.js): a shallow embedding of the
Collection data structure together with the range, assemble and
parseCollection algorithms, and proofs about the documented properties.

Modelling conventions:
* JavaScript strings are modelled as `List Char`.
* JavaScript `Set` objects holding integers are modelled as `Finset ℤ`
  (value semantics: no duplicates, unordered).
* JavaScript numbers that the code checks with `Number.isInteger` are
  modelled as `ℤ` together with a separate marker for non-integer numbers
  where the distinction is observable.
* Exceptions are modelled with `Except String` (or with an explicit
  post-state paired with `Option String` where the claim is about the
  state left behind by a throwing call).
-/

/-- Shorthand to obtain the character list of a string literal. -/
def str (s : String) : List Char := s.toList

/-- Length of the leading run of the character zero, as consumed by the
regex fragment 0* before backtracking. -/
def zeroRunLen (l : List Char) : Nat := (l.takeWhile (fun c => c = '0')).length

/-- JavaScript word character, the regex class backslash-w: ASCII
letters, digits and underscore. -/
def isWordChar (c : Char) : Bool :=
  (65 ≤ c.toNat && c.toNat ≤ 90) || (97 ≤ c.toNat && c.toNat ≤ 122)
    || (48 ≤ c.toNat && c.toNat ≤ 57) || c = '_'

/-- ECMAScript line terminators, which the regex dot does not match. -/
def isLineTerm (c : Char) : Bool :=
  c = '\n' || c = '\r' || c = Char.ofNat 0x2028 || c = Char.ofNat 0x2029

/-- The decimal digit character for a value below ten. -/
def digitChar (n : Nat) : Char := Char.ofNat (48 + n)

/-- Fuel-indexed decimal rendering loop (structural recursion so that it
reduces inside the kernel); the fuel never runs out when it starts above
the number itself. -/
def natDigitsF : Nat → Nat → List Char
  | 0, _ => []
  | fuel + 1, n =>
    if n < 10 then [digitChar n]
    else natDigitsF fuel (n / 10) ++ [digitChar (n % 10)]

/-- Decimal digit string of a natural number, as produced by JavaScript
String(n) for non-negative n. -/
def natDigits (n : Nat) : List Char := natDigitsF (n + 1) n

theorem natDigitsF_irrel : ∀ (fuel1 : Nat) (fuel2 n : Nat), n < fuel1 → n < fuel2 →
    natDigitsF fuel1 n = natDigitsF fuel2 n := by
  intro fuel1
  induction fuel1 with
  | zero => intro fuel2 n h1 _; omega
  | succ f ih =>
    intro fuel2 n h1 h2
    cases fuel2 with
    | zero => omega
    | succ f2 =>
      show (if n < 10 then [digitChar n] else natDigitsF f (n / 10) ++ [digitChar (n % 10)])
        = (if n < 10 then [digitChar n] else natDigitsF f2 (n / 10) ++ [digitChar (n % 10)])
      by_cases hn : n < 10
      · rw [if_pos hn, if_pos hn]
      · have hdiv : n / 10 < n := Nat.div_lt_self (by omega) (by omega)
        rw [if_neg hn, if_neg hn, ih f2 (n / 10) (by omega) (by omega)]

theorem natDigits_eq (n : Nat) : natDigits n =
    if n < 10 then [digitChar n]
    else natDigits (n / 10) ++ [digitChar (n % 10)] := by
  show natDigitsF (n + 1) n = _
  by_cases hn : n < 10
  · show (if n < 10 then _ else _) = _
    rw [if_pos hn, if_pos hn]
  · have hdiv : n / 10 < n := Nat.div_lt_self (by omega) (by omega)
    show (if n < 10 then _ else _) = _
    rw [if_neg hn, if_neg hn,
      natDigitsF_irrel n (n / 10 + 1) (n / 10) (by omega) (by omega)]
    rfl

/-- JavaScript String(i) for an integer i. -/
def jsString (i : Int) : List Char :=
  if i < 0 then '-' :: natDigits i.natAbs else natDigits i.toNat

/-- Numeric value of a digit character. -/
def digitVal (c : Char) : Nat := c.toNat - 48

/-- Value of a string of decimal digits, as computed by JavaScript
Number(s) or parseInt(s, 10) on an all-digit string. -/
def digitsToNat (l : List Char) : Nat :=
  l.foldl (fun acc c => acc * 10 + digitVal c) 0

/-- Decimal digit length of Math.abs(i), i.e. String(Math.abs(i)).length. -/
def digitCount (i : Int) : Nat := (natDigits i.natAbs).length

/-- Fuel-indexed loop of range() for a positive step (structural so it
reduces inside the kernel): while (step > 0 && i < stop). -/
def rangeUpF : Nat → Int → Int → Int → List Int
  | 0, _, _, _ => []
  | fuel + 1, stop, step, i =>
    if 0 < step ∧ i < stop then i :: rangeUpF fuel stop step (i + step) else []

/-- Loop of range() for a positive step: while (step > 0 && i < stop). -/
def rangeUp (stop step i : Int) : List Int :=
  rangeUpF ((stop - i).toNat + 1) stop step i

/-- Fuel-indexed loop of range() for a negative step: while
(step < 0 && i > stop). -/
def rangeDownF : Nat → Int → Int → Int → List Int
  | 0, _, _, _ => []
  | fuel + 1, stop, step, i =>
    if step < 0 ∧ stop < i then i :: rangeDownF fuel stop step (i + step) else []

/-- Loop of range() for a negative step: while (step < 0 && i > stop). -/
def rangeDown (stop step i : Int) : List Int :=
  rangeDownF ((i - stop).toNat + 1) stop step i

theorem rangeUpF_irrel : ∀ (fuel1 fuel2 : Nat) (stop step i : Int),
    (stop - i).toNat < fuel1 → (stop - i).toNat < fuel2 →
    rangeUpF fuel1 stop step i = rangeUpF fuel2 stop step i := by
  intro fuel1
  induction fuel1 with
  | zero => intro fuel2 stop step i h1 _; omega
  | succ f ih =>
    intro fuel2 stop step i h1 h2
    cases fuel2 with
    | zero => omega
    | succ f2 =>
      show (if 0 < step ∧ i < stop then i :: rangeUpF f stop step (i + step) else [])
        = (if 0 < step ∧ i < stop then i :: rangeUpF f2 stop step (i + step) else [])
      by_cases hc : 0 < step ∧ i < stop
      · obtain ⟨hs, hi⟩ := hc
        rw [if_pos ⟨hs, hi⟩, if_pos ⟨hs, hi⟩,
          ih f2 stop step (i + step) (by omega) (by omega)]
      · rw [if_neg hc, if_neg hc]

/-- A JavaScript number argument as observed by Number.isInteger: either an
integer or some non-integer number (fraction, NaN, infinity). -/
inductive JSNum where
  | int (n : Int)
  | nonInt
deriving DecidableEq

/-- Whether Number.isInteger accepts the argument. -/
def JSNum.isInt : JSNum → Bool
  | .int _ => true
  | .nonInt => false

/-- range(start, stop, step) with all three arguments supplied, from
src/seqo.js lines 362-395: validates that all arguments are integers, that
step is nonzero and that the sign of step is compatible with the direction
from start to stop, then materialises the generator loop. -/
def range3 (start stop step : JSNum) : Except String (List Int) :=
  match start, stop, step with
  | .int a, .int b, .int st =>
    if st = 0 then .error "range() step argument must not be zero"
    else if (a < b ∧ st < 0) ∨ (b < a ∧ 0 < st) then
      .error "range() step argument incompatible with start/stop"
    else .ok (if 0 < st then rangeUp b st a else rangeDown b st a)
  | _, _, _ => .error "range() arguments must be integers"

/-- range(start, stop) with the step defaulted: step is 1 when start is at
most stop and -1 otherwise (src/seqo.js lines 369-371). -/
def range2 (start stop : Int) : Except String (List Int) :=
  range3 (.int start) (.int stop) (.int (if start ≤ stop then 1 else -1))

/-- The integers from a to b inclusive, as materialised by the range()
loop with step 1; empty when b is below a. -/
def intList (a b : Int) : List Int := rangeUp (b + 1) 1 a

/-- The Collection data structure (src/seqo.js lines 403-789).  The
constructor validates that padding is a non-negative integer (hence ℕ
here) and that the stored indexes form a set; the index elements are
integers (the constructor rejects negative ones, which theorems needing
that fact assume through Collection.Nonneg). -/
structure Collection where
  head : List Char
  tail : List Char
  padding : Nat
  _indexes : Finset Int
deriving DecidableEq

/-- All stored indexes are non-negative: the invariant established by the
constructor validation (src/seqo.js lines 432-446). -/
def Collection.Nonneg (c : Collection) : Prop := ∀ i ∈ c._indexes, 0 ≤ i

instance (c : Collection) : Decidable c.Nonneg := by
  unfold Collection.Nonneg; infer_instance

/-- Ascending list of the elements of a multiset of integers, computed
with insertion sort so that it reduces inside the kernel; it agrees with
Multiset.sort (proved below). -/
def multisetSorted (m : Multiset Int) : List Int :=
  Quot.liftOn m (fun l => l.insertionSort (· ≤ ·)) (fun l1 l2 h =>
    List.eq_of_perm_of_sorted
      ((List.perm_insertionSort _ _).trans (h.trans (List.perm_insertionSort _ _).symm))
      (List.sorted_insertionSort _ _) (List.sorted_insertionSort _ _))

theorem multisetSorted_eq_sort (m : Multiset Int) :
    multisetSorted m = Multiset.sort (· ≤ ·) m := by
  induction m using Quotient.inductionOn with
  | h l => exact (List.mergeSort_eq_insertionSort _ _).symm

/-- The indexes getter: the stored set as an ascending array
(src/seqo.js lines 453-455). -/
def Collection.indexes (c : Collection) : List Int :=
  multisetSorted c._indexes.val

theorem indexes_eq_sort (c : Collection) :
    c.indexes = c._indexes.sort (· ≤ ·) :=
  multisetSorted_eq_sort c._indexes.val

/-- padStart(padding, '0') applied to a decimal string. -/
def padStart (w : Nat) (l : List Char) : List Char :=
  List.replicate (w - l.length) '0' ++ l

/-- The members getter: each index rendered as head, zero-padded index,
tail (src/seqo.js lines 462-464). -/
def Collection.members (c : Collection) : List (List Char) :=
  c.indexes.map (fun i => c.head ++ padStart c.padding (jsString i) ++ c.tail)

/-- The holes getter (src/seqo.js lines 472-490): null when fewer than two
indexes; otherwise the integers strictly between the first and last index
that are missing from the set, returned as a new Collection when any
exist, else null. -/
def Collection.holes (c : Collection) : Option Collection :=
  if c._indexes.card < 2 then none
  else
    let l := c.indexes
    let start := l.head?.getD 0
    let stop := l.getLast?.getD 0
    let hs := (intList (start + 1) (stop - 1)).filter (fun i => decide (i ∉ c._indexes))
    if hs ≠ [] then some ⟨c.head, c.tail, c.padding, hs.toFinset⟩ else none

/-- The isContiguous getter (src/seqo.js lines 497-508): true when at most
one index, else true exactly when every integer strictly between the first
and last index is present. -/
def Collection.isContiguous (c : Collection) : Bool :=
  if c._indexes.card ≤ 1 then true
  else
    let l := c.indexes
    let start := l.head?.getD 0
    let stop := l.getLast?.getD 0
    (intList (start + 1) (stop - 1)).all (fun i => decide (i ∈ c._indexes))

/-- isCompatible (src/seqo.js lines 687-694): equal head, tail and
padding.  The instanceof check is implicit in the type. -/
def Collection.isCompatible (c d : Collection) : Bool :=
  c.head = d.head && c.tail = d.tail && c.padding = d.padding

/-- One regex atom arising from a character of the head or tail that the
source splices verbatim into the regex: the dot matches any character
except line terminators, every other character in scope matches itself.
The private expression() (src/seqo.js line 786) does not escape head or
tail, so their characters act as regex source, not as literal text.  This
embedding covers heads and tails whose characters are either plain or the
dot; other metacharacters are outside its domain. -/
def atomMatches (pat c : Char) : Bool :=
  if pat = '.' then !(isLineTerm c) else pat = c

/-- Whether a verbatim pattern fragment matches a string exactly,
atom by atom. -/
def atomsMatch (pat s : List Char) : Bool :=
  (pat.length == s.length) && (List.zip pat s).all (fun p => atomMatches p.1 p.2)

/-- Match a verbatim fragment against the front of s (each atom consumes
exactly one character), returning the rest of s on success. -/
def consumeAtoms (pat s : List Char) : Option (List Char) :=
  if atomsMatch pat (s.take pat.length) then some (s.drop pat.length) else none

/-- Candidate lengths n-1, n-2, ..., 0 in the order a greedy quantifier
tries them. -/
def descRange (n : Nat) : List Nat := (List.range n).reverse

/-- Backtracking search for the group (?<padding>0*) followed by the lazy
digits +? followed by the tail fragment and the end anchor, on the rest r
of the subject after the head.  The greedy 0* tries the longest zero run
first; for each choice the lazy digit quantifier tries one digit, then
two, and so on.  Returns the first (padLen, digLen) pair that lets the
tail match the entire remainder, exactly as the regex engine would. -/
def ldGuard (tl r : List Char) (padLen digLen : Nat) : Bool :=
  ((r.drop padLen).take digLen).all Char.isDigit
    && atomsMatch tl (r.drop (padLen + digLen))

def lazyDigits (tl r : List Char) : Option (Nat × Nat) :=
  (descRange (zeroRunLen r + 1)).findSome? (fun padLen =>
    ((List.range (r.length - padLen)).map (· + 1)).findSome? (fun digLen =>
      if ldGuard tl r padLen digLen then some (padLen, digLen) else none))

/-- Collection.match (src/seqo.js lines 764-777) with the private regex
of line 786: anchored head fragment, the group
(?<index>(?<padding>0*) digits +?), the tail fragment, end anchor; then
the padding rules: with padding zero reject any nonempty padding capture,
otherwise require the index capture length to equal the padding.  Returns
the (index, padding) captures on success. -/
def Collection.match (c : Collection) (item : List Char) :
    Option (List Char × List Char) :=
  match consumeAtoms c.head item with
  | none => none
  | some r =>
    match lazyDigits c.tail r with
    | none => none
    | some (padLen, digLen) =>
      let index := r.take (padLen + digLen)
      let padCap := r.take padLen
      if c.padding = 0 then
        if padCap ≠ [] then none else some (index, padCap)
      else if index.length ≠ c.padding then none
      else some (index, padCap)

/-- An argument item of Collection.add or Collection.remove: an integer
number, a non-integer number, a string, a Collection, or a value of any
other type. -/
inductive Item where
  | int (n : Int)
  | nonIntNum
  | str (s : List Char)
  | coll (d : Collection)
  | other
deriving DecidableEq

/-- The loop of Collection.add (src/seqo.js lines 525-555) acting on the
local copy newIndexes of the index set: each item either contributes its
indexes or throws. -/
def addLoop (c : Collection) (acc : Finset Int) :
    List Item → Except String (Finset Int)
  | [] => .ok acc
  | it :: rest =>
    match it with
    | .coll d =>
      if c.isCompatible d then addLoop c (acc ∪ d._indexes) rest
      else .error "item is not compatible with this collection"
    | .str s =>
      match c.match s with
      | some (index, _) => addLoop c (insert ((digitsToNat index : Int)) acc) rest
      | none => .error "item does not match collection expression"
    | .int n =>
      if 0 ≤ n then addLoop c (insert n acc) rest
      else .error "invalid index: expected non-negative integer"
    | .nonIntNum => .error "invalid index: expected non-negative integer"
    | .other => .error "invalid item type"

/-- Collection.add (src/seqo.js lines 517-559).  The source builds a local
set newIndexes from a copy of this._indexes, walks the items throwing on
the first invalid one, and only after the whole loop assigns
this._indexes = newIndexes.  A throw therefore leaves the receiver
untouched, so the embedding returns the post-call collection paired with
the error, the post-call collection being the receiver itself whenever an
error occurred. -/
def Collection.add (c : Collection) (items : List Item) :
    Collection × Option String :=
  match addLoop c c._indexes items with
  | .ok s => ({c with _indexes := s}, none)
  | .error e => (c, some e)

/-- The run-splitting loop of Collection.separate (src/seqo.js lines
649-676): walk the sorted indexes; on each gap emit a Collection holding
the integers from start to prev, materialised by range(start, prev + 1)
(whose default step is 1 because start never exceeds prev), then continue
from the current index; after the loop emit the final run. -/
def sepRuns (hd tl : List Char) (pad : Nat) :
    Int → Int → List Int → List Collection
  | start, prev, [] => [⟨hd, tl, pad, (intList start prev).toFinset⟩]
  | start, prev, cur :: rest =>
    if cur ≠ prev + 1 then
      ⟨hd, tl, pad, (intList start prev).toFinset⟩ :: sepRuns hd tl pad cur cur rest
    else sepRuns hd tl pad start cur rest

/-- Collection.separate (src/seqo.js lines 613-679): an empty collection
yields one empty Collection; a contiguous collection yields a copy of
itself; otherwise the sorted indexes are split into maximal consecutive
runs (the single-element branch of the source is mirrored although the
earlier contiguity branch already catches it). -/
def Collection.separate (c : Collection) : List Collection :=
  if c._indexes.card = 0 then [⟨c.head, c.tail, c.padding, ∅⟩]
  else if c.isContiguous then [⟨c.head, c.tail, c.padding, c._indexes⟩]
  else
    match c.indexes with
    | [] => []
    | i0 :: rest =>
      if rest = [] then [⟨c.head, c.tail, c.padding, ({i0} : Finset Int)⟩]
      else sepRuns c.head c.tail c.padding i0 i0 rest

/-! ### Helper lemmas about the range loop and sorted index lists -/

theorem rangeUp_nil {stop step i : Int} (h : ¬(0 < step ∧ i < stop)) :
    rangeUp stop step i = [] := by
  show (if 0 < step ∧ i < stop then _ else _) = _
  rw [if_neg h]

theorem rangeUp_cons {stop step i : Int} (h : 0 < step ∧ i < stop) :
    rangeUp stop step i = i :: rangeUp stop step (i + step) := by
  obtain ⟨hs, hi⟩ := h
  show (if 0 < step ∧ i < stop then i :: rangeUpF (stop - i).toNat stop step (i + step) else [])
    = i :: rangeUpF ((stop - (i + step)).toNat + 1) stop step (i + step)
  rw [if_pos ⟨hs, hi⟩,
    rangeUpF_irrel (stop - i).toNat ((stop - (i + step)).toNat + 1) stop step (i + step)
      (by omega) (by omega)]

theorem rangeDown_nil {stop step i : Int} (h : ¬(step < 0 ∧ stop < i)) :
    rangeDown stop step i = [] := by
  show (if step < 0 ∧ stop < i then _ else _) = _
  rw [if_neg h]

theorem mem_rangeUp_one {b : Int} : ∀ {a x : Int}, x ∈ rangeUp b 1 a ↔ a ≤ x ∧ x < b := by
  intro a x
  by_cases h : a < b
  · rw [rangeUp_cons ⟨by omega, h⟩]
    have ih : x ∈ rangeUp b 1 (a + 1) ↔ a + 1 ≤ x ∧ x < b := mem_rangeUp_one
    simp only [List.mem_cons, ih]
    omega
  · rw [rangeUp_nil (by omega)]
    simp; omega
termination_by a x => (b - a).toNat
decreasing_by omega

theorem mem_intList {a b x : Int} : x ∈ intList a b ↔ a ≤ x ∧ x ≤ b := by
  unfold intList; rw [mem_rangeUp_one]; omega

theorem intList_singleton (a : Int) : intList a a = [a] := by
  unfold intList
  rw [rangeUp_cons ⟨by omega, by omega⟩, rangeUp_nil (by omega)]

theorem intList_nil {a b : Int} (h : b < a) : intList a b = [] := by
  unfold intList; exact rangeUp_nil (by omega)

theorem intList_snoc {a b : Int} (h : a ≤ b) : intList a b = intList a (b - 1) ++ [b] := by
  unfold intList
  by_cases hab : a = b
  · subst hab
    rw [rangeUp_cons ⟨by omega, by omega⟩, rangeUp_nil (by omega),
      rangeUp_nil (by omega)]
    simp
  · have h1 : a < b := by omega
    rw [rangeUp_cons (i := a) ⟨by omega, by omega⟩, rangeUp_cons (i := a) ⟨by omega, by omega⟩]
    have ih := intList_snoc (a := a + 1) (b := b) (by omega)
    unfold intList at ih
    rw [ih]
    simp
termination_by (b - a).toNat
decreasing_by omega

theorem intList_cons {a b : Int} (h : a ≤ b) : intList a b = a :: intList (a + 1) b := by
  unfold intList
  rw [rangeUp_cons ⟨by omega, by omega⟩]

theorem intList_sorted (a b : Int) : (intList a b).Sorted (· < ·) := by
  by_cases h : a ≤ b
  · rw [intList_cons h]
    refine List.sorted_cons.mpr ⟨?_, ?_⟩
    · intro x hx; rw [mem_intList] at hx; omega
    · exact intList_sorted (a + 1) b
  · rw [intList_nil (by omega)]; exact List.sorted_nil
termination_by (b + 1 - a).toNat
decreasing_by omega

theorem sorted_lt_of_sorted_le_nodup {l : List Int}
    (hs : l.Sorted (· ≤ ·)) (hn : l.Nodup) : l.Sorted (· < ·) := by
  unfold List.Sorted at *
  exact (hs.and hn).imp (fun h => lt_of_le_of_ne h.1 h.2)

/-- A strictly sorted integer list is recovered exactly by sorting its
Finset of elements. -/
theorem sort_toFinset_of_sorted {l : List Int} (hs : l.Sorted (· < ·)) :
    l.toFinset.sort (· ≤ ·) = l :=
  (List.toFinset_sort _ hs.nodup).mpr hs.le_of_lt

theorem sorted_head_le {l : List Int} (hs : l.Sorted (· ≤ ·)) {a : Int} (ha : a ∈ l) :
    l.head?.getD 0 ≤ a := by
  cases l with
  | nil => cases ha
  | cons x t =>
    simp only [List.head?_cons, Option.getD_some]
    rcases List.mem_cons.mp ha with h | h
    · omega
    · exact (List.sorted_cons.mp hs).1 a h

theorem sorted_le_getLast : ∀ {l : List Int}, l.Sorted (· ≤ ·) →
    ∀ {a : Int}, a ∈ l → a ≤ l.getLast?.getD 0 := by
  intro l
  induction l with
  | nil => intro _ a ha; cases ha
  | cons x t ih =>
    intro hs a ha
    cases t with
    | nil =>
      simp at ha; simp [ha]
    | cons y u =>
      have hgl : (x :: y :: u).getLast? = (y :: u).getLast? := by
        simp [List.getLast?]
      rw [hgl]
      rcases List.mem_cons.mp ha with h | h
      · subst h
        have hxy : a ≤ y := (List.sorted_cons.mp hs).1 y (by simp)
        have hy := ih (List.sorted_cons.mp hs).2 (List.mem_cons_self y u)
        omega
      · exact ih (List.sorted_cons.mp hs).2 h

theorem head_getD_mem {l : List Int} (h : l ≠ []) : l.head?.getD 0 ∈ l := by
  cases l with
  | nil => exact absurd rfl h
  | cons x t => simp

theorem getLast_getD_mem {l : List Int} (h : l ≠ []) : l.getLast?.getD 0 ∈ l := by
  cases l with
  | nil => exact absurd rfl h
  | cons x t =>
    rw [List.getLast?_eq_getLast _ (by simp)]
    exact List.getLast_mem _

/-! ### Basic facts about the indexes getter -/

theorem mem_indexes {c : Collection} {i : Int} : i ∈ c.indexes ↔ i ∈ c._indexes := by
  rw [indexes_eq_sort]; exact Finset.mem_sort _

theorem indexes_sorted_le (c : Collection) : c.indexes.Sorted (· ≤ ·) := by
  rw [indexes_eq_sort]; exact Finset.sort_sorted _ _

theorem indexes_nodup (c : Collection) : c.indexes.Nodup := by
  rw [indexes_eq_sort]; exact Finset.sort_nodup _ _

theorem length_indexes (c : Collection) : c.indexes.length = c._indexes.card := by
  rw [indexes_eq_sort]; exact Finset.length_sort _

theorem indexes_eq_nil {c : Collection} : c.indexes = [] ↔ c._indexes = ∅ := by
  rw [← Finset.card_eq_zero, ← length_indexes, List.length_eq_zero]

/-! ### Claim C9: range behaviour -/

/-- C9 counterexample: the claim states that range(start, start, step)
yields an empty sequence without failing regardless of the step value,
but with step 0 the source throws the zero-step error before ever
comparing start with stop, so range(0, 0, 0) fails instead of returning
an empty sequence. -/
theorem c9_counterexample :
    range3 (.int 0) (.int 0) (.int 0) =
      .error "range() step argument must not be zero" := rfl

/-- C9 (amended): range(start, start, step) yields an empty sequence for
every nonzero integer step (emptiness when start equals stop holds
regardless of the sign of the step); range fails with the argument-type
error when any argument is a non-integer, with the zero-step error when
all arguments are integers and step is 0, and with the incompatible-step
error when the sign of a nonzero step disagrees with the direction from
start to stop. -/
theorem c9_range_empty_and_errors :
    (∀ a st : Int, st ≠ 0 → range3 (.int a) (.int a) (.int st) = .ok [])
    ∧ (∀ x y z : JSNum, (x.isInt = false ∨ y.isInt = false ∨ z.isInt = false) →
        range3 x y z = .error "range() arguments must be integers")
    ∧ (∀ a b : Int, range3 (.int a) (.int b) (.int 0) =
        .error "range() step argument must not be zero")
    ∧ (∀ a b st : Int, ((a < b ∧ st < 0) ∨ (b < a ∧ 0 < st)) →
        range3 (.int a) (.int b) (.int st) =
          .error "range() step argument incompatible with start/stop") := by
  refine ⟨?_, ?_, ?_, ?_⟩
  · intro a st hst
    unfold range3
    dsimp only
    rw [if_neg hst, if_neg (by omega)]
    by_cases hpos : 0 < st
    · rw [if_pos hpos, rangeUp_nil (by omega)]
    · rw [if_neg hpos, rangeDown_nil (by omega)]
  · intro x y z hxyz
    cases x <;> cases y <;> cases z <;>
      simp_all [range3, JSNum.isInt]
  · intro a b
    unfold range3
    dsimp only
    rw [if_pos rfl]
  · intro a b st hsign
    unfold range3
    dsimp only
    rw [if_neg (by omega), if_pos hsign]

/-- Witness for C9: concrete instances of each amended conjunct. -/
theorem c9_witness :
    range3 (.int 7) (.int 7) (.int (-2)) = .ok []
    ∧ range3 .nonInt (.int 0) (.int 1) = .error "range() arguments must be integers"
    ∧ range3 (.int 1) (.int 9) (.int 0) = .error "range() step argument must not be zero"
    ∧ range3 (.int 0) (.int 5) (.int (-1)) =
        .error "range() step argument incompatible with start/stop" :=
  ⟨c9_range_empty_and_errors.1 7 (-2) (by decide),
   c9_range_empty_and_errors.2.1 .nonInt (.int 0) (.int 1) (by decide),
   c9_range_empty_and_errors.2.2.1 1 9,
   c9_range_empty_and_errors.2.2.2 0 5 (-1) (by omega)⟩

/-! ### Claim C5: holes and contiguity -/

/-- C5: for a collection with at least two indexes, isContiguous is true
exactly when holes is null; for at most one index both isContiguous and
the absence of holes hold; and a non-null holes collection contains
exactly the integers that lie strictly between two members of the
collection (equivalently strictly between its minimum and maximum) and
are absent from it. -/
theorem c5_holes_contiguity :
    ∀ c : Collection,
      (2 ≤ c._indexes.card → (c.isContiguous = true ↔ c.holes = none))
      ∧ (c._indexes.card ≤ 1 → c.isContiguous = true ∧ c.holes = none)
      ∧ (∀ h, c.holes = some h →
          ∀ i : Int, i ∈ h._indexes ↔
            ((∃ a ∈ c._indexes, a < i) ∧ (∃ b ∈ c._indexes, i < b)
              ∧ i ∉ c._indexes)) := by
  intro c
  refine ⟨?_, ?_, ?_⟩
  · intro hcard
    unfold Collection.isContiguous Collection.holes
    rw [if_neg (by omega), if_neg (by omega)]
    simp only [ne_eq, ite_eq_right_iff, reduceCtorEq, imp_false, not_not]
    rw [List.all_eq_true, List.filter_eq_nil]
    constructor
    · intro hall x hx
      simpa using hall x hx
    · intro hnone x hx
      simpa using hnone x hx
  · intro hcard
    unfold Collection.isContiguous Collection.holes
    rw [if_pos (by omega), if_pos (by omega)]
    exact ⟨rfl, rfl⟩
  · intro h hsome i
    unfold Collection.holes at hsome
    by_cases hcard : c._indexes.card < 2
    · rw [if_pos hcard] at hsome; cases hsome
    · rw [if_neg hcard] at hsome
      simp only at hsome
      set l := c.indexes with hl
      set start := l.head?.getD 0 with hstart
      set stop := l.getLast?.getD 0 with hstop
      set hs := (intList (start + 1) (stop - 1)).filter
        (fun i => decide (i ∉ c._indexes)) with hhs
      by_cases hne : hs ≠ []
      · rw [if_pos hne] at hsome
        cases hsome
        have hlne : l ≠ [] := by
          rw [hl, ne_eq, indexes_eq_nil]
          intro hemp
          rw [hemp] at hcard
          simp at hcard
        have hstartmem : start ∈ c._indexes :=
          mem_indexes.mp (hl ▸ head_getD_mem hlne)
        have hstopmem : stop ∈ c._indexes :=
          mem_indexes.mp (hl ▸ getLast_getD_mem hlne)
        simp only [List.mem_toFinset, hhs, List.mem_filter, mem_intList,
          decide_eq_true_eq]
        constructor
        · rintro ⟨⟨h1, h2⟩, h3⟩
          exact ⟨⟨start, hstartmem, by omega⟩, ⟨stop, hstopmem, by omega⟩, h3⟩
        · rintro ⟨⟨a, ha, hai⟩, ⟨b, hb, hib⟩, h3⟩
          have h1 : start ≤ a := sorted_head_le (indexes_sorted_le c) (mem_indexes.mpr ha)
          have h2 : b ≤ stop := sorted_le_getLast (indexes_sorted_le c) (mem_indexes.mpr hb)
          exact ⟨⟨by omega, by omega⟩, h3⟩
      · rw [if_neg hne] at hsome; cases hsome

/-! ### Claim C4: separate -/

theorem intList_head {a b : Int} (h : a ≤ b) : (intList a b).head?.getD 0 = a := by
  rw [intList_cons h]; rfl

theorem intList_getLast {a b : Int} (h : a ≤ b) : (intList a b).getLast?.getD 0 = b := by
  rw [intList_snoc h, List.getLast?_concat]; rfl

theorem intList_coll_indexes (hd tl : List Char) (pad : Nat) (a b : Int) :
    (⟨hd, tl, pad, (intList a b).toFinset⟩ : Collection).indexes = intList a b := by
  rw [indexes_eq_sort]
  exact sort_toFinset_of_sorted (intList_sorted a b)

theorem intList_coll_contiguous (hd tl : List Char) (pad : Nat) {a b : Int} (hab : a ≤ b) :
    (⟨hd, tl, pad, (intList a b).toFinset⟩ : Collection).isContiguous = true := by
  unfold Collection.isContiguous
  by_cases hc : ((⟨hd, tl, pad, (intList a b).toFinset⟩ : Collection))._indexes.card ≤ 1
  · rw [if_pos hc]
  · rw [if_neg hc]
    simp only [intList_coll_indexes]
    rw [intList_head hab, intList_getLast hab, List.all_eq_true]
    intro x hx
    rw [mem_intList] at hx
    simp only [List.mem_toFinset, decide_eq_true_eq, mem_intList]
    omega

theorem singleton_coll_contiguous (hd tl : List Char) (pad : Nat) (a : Int) :
    (⟨hd, tl, pad, ({a} : Finset Int)⟩ : Collection).isContiguous = true := by
  unfold Collection.isContiguous
  rw [if_pos (by simp)]

theorem sepRuns_join (hd tl : List Char) (pad : Nat) :
    ∀ (rest : List Int) (start prev : Int), start ≤ prev →
      ((sepRuns hd tl pad start prev rest).map Collection.indexes).flatten
        = intList start prev ++ rest := by
  intro rest
  induction rest with
  | nil =>
    intro start prev h
    unfold sepRuns
    simp [intList_coll_indexes]
  | cons cur rest ih =>
    intro start prev h
    unfold sepRuns
    by_cases hgap : cur ≠ prev + 1
    · rw [if_pos hgap]
      simp only [List.map_cons, List.flatten_cons, intList_coll_indexes]
      rw [ih cur cur le_rfl, intList_singleton]
      simp
    · rw [if_neg hgap]
      push_neg at hgap
      rw [ih start cur (by omega)]
      have hsnoc : intList start cur = intList start prev ++ [cur] := by
        rw [hgap]
        have := intList_snoc (a := start) (b := prev + 1) (by omega)
        rwa [show prev + 1 - 1 = prev by omega] at this
      rw [hsnoc, hgap]
      simp

theorem sepRuns_pieces (hd tl : List Char) (pad : Nat) :
    ∀ (rest : List Int) (start prev : Int), start ≤ prev →
      ∀ p ∈ sepRuns hd tl pad start prev rest,
        p.isContiguous = true ∧ p.head = hd ∧ p.tail = tl ∧ p.padding = pad := by
  intro rest
  induction rest with
  | nil =>
    intro start prev h p hp
    unfold sepRuns at hp
    simp only [List.mem_singleton] at hp
    subst hp
    exact ⟨intList_coll_contiguous hd tl pad h, rfl, rfl, rfl⟩
  | cons cur rest ih =>
    intro start prev h p hp
    unfold sepRuns at hp
    by_cases hgap : cur ≠ prev + 1
    · rw [if_pos hgap] at hp
      rcases List.mem_cons.mp hp with hp | hp
      · subst hp
        exact ⟨intList_coll_contiguous hd tl pad h, rfl, rfl, rfl⟩
      · exact ih cur cur le_rfl p hp
    · rw [if_neg hgap] at hp
      push_neg at hgap
      exact ih start cur (by omega) p hp

/-- C4: concatenating the indexes of the pieces of separate, in order,
reproduces the sorted indexes of the collection; every piece is
contiguous and shares the head, tail and padding; and an empty collection
separates into a one-element list holding one empty collection. -/
theorem c4_separate_invariant :
    ∀ c : Collection,
      ((c.separate.map Collection.indexes).flatten = c.indexes)
      ∧ (∀ p ∈ c.separate,
          p.isContiguous = true ∧ p.head = c.head ∧ p.tail = c.tail
            ∧ p.padding = c.padding)
      ∧ (c._indexes = ∅ → c.separate = [⟨c.head, c.tail, c.padding, ∅⟩]) := by
  intro c
  unfold Collection.separate
  by_cases h0 : c._indexes.card = 0
  · rw [if_pos h0]
    have hemp : c._indexes = ∅ := Finset.card_eq_zero.mp h0
    refine ⟨?_, ?_, fun _ => rfl⟩
    · simp only [List.map_cons, List.map_nil, List.flatten_cons, List.flatten_nil]
      rw [indexes_eq_sort, indexes_eq_sort]
      show Finset.sort (· ≤ ·) (∅ : Finset Int) ++ [] = Finset.sort (· ≤ ·) c._indexes
      rw [hemp, Finset.sort_empty]
      rfl
    · intro p hp
      simp only [List.mem_singleton] at hp
      subst hp
      refine ⟨?_, rfl, rfl, rfl⟩
      unfold Collection.isContiguous
      rw [if_pos (by simp)]
  · rw [if_neg h0]
    by_cases hcont : c.isContiguous = true
    · rw [if_pos hcont]
      refine ⟨?_, ?_, ?_⟩
      · simp
      · intro p hp
        simp only [List.mem_singleton] at hp
        subst hp
        exact ⟨hcont, rfl, rfl, rfl⟩
      · intro hemp
        exact absurd (by rw [hemp]; rfl) h0
    · rw [if_neg hcont]
      cases hl : c.indexes with
      | nil =>
        have hemp : c._indexes = ∅ := indexes_eq_nil.mp hl
        exact absurd (by rw [hemp]; rfl) h0
      | cons i0 rest =>
        cases hrest : rest with
        | nil =>
          dsimp only
          rw [if_pos rfl]
          refine ⟨?_, ?_, ?_⟩
          · simp only [List.map_cons, List.map_nil, List.flatten_cons, List.flatten_nil]
            rw [indexes_eq_sort]
            show Finset.sort (· ≤ ·) ({i0} : Finset Int) ++ [] = [i0]
            rw [Finset.sort_singleton]
            rfl
          · intro p hp
            simp only [List.mem_singleton] at hp
            subst hp
            exact ⟨singleton_coll_contiguous _ _ _ _, rfl, rfl, rfl⟩
          · intro hemp
            rw [indexes_eq_nil.mpr hemp] at hl
            cases hl
        | cons c1 rest1 =>
          dsimp only
          rw [if_neg (by simp)]
          refine ⟨?_, ?_, ?_⟩
          · rw [sepRuns_join c.head c.tail c.padding _ i0 i0 le_rfl,
              intList_singleton]
            rfl
          · intro p hp
            have := sepRuns_pieces c.head c.tail c.padding _ i0 i0 le_rfl p hp
            exact ⟨this.1, this.2.1, this.2.2.1, this.2.2.2⟩
          · intro hemp
            rw [indexes_eq_nil.mpr hemp] at hl
            cases hl

/-- Witness for C4 at a concrete collection with a gap. -/
theorem c4_witness :
    let c : Collection := ⟨str "f", str ".x", 2, ({1, 2, 5} : Finset Int)⟩
    ((c.separate.map Collection.indexes).flatten = c.indexes)
    ∧ (∀ p ∈ c.separate,
        p.isContiguous = true ∧ p.head = c.head ∧ p.tail = c.tail
          ∧ p.padding = c.padding)
    ∧ (c._indexes = ∅ → c.separate = [⟨c.head, c.tail, c.padding, ∅⟩]) :=
  c4_separate_invariant ⟨str "f", str ".x", 2, ({1, 2, 5} : Finset Int)⟩

/-! ### Claim C1: add is all-or-nothing -/

/-- Validity of one add item, mirroring the per-item checks of the source:
a compatible Collection, a string accepted by match, or a non-negative
integer; non-integer numbers and other types are always invalid. -/
def itemValid (c : Collection) : Item → Bool
  | .int n => decide (0 ≤ n)
  | .nonIntNum => false
  | .str s => (c.match s).isSome
  | .coll d => c.isCompatible d
  | .other => false

/-- The indexes a valid item contributes to the collection. -/
def itemIdxs (c : Collection) : Item → Finset Int
  | .int n => {n}
  | .nonIntNum => ∅
  | .str s =>
    match c.match s with
    | some (index, _) => {(digitsToNat index : Int)}
    | none => ∅
  | .coll d => d._indexes
  | .other => ∅

theorem addLoop_ok (c : Collection) :
    ∀ (items : List Item) (acc : Finset Int),
      (∀ it ∈ items, itemValid c it = true) →
      addLoop c acc items =
        .ok (items.foldl (fun a it => a ∪ itemIdxs c it) acc) := by
  intro items
  induction items with
  | nil => intro acc _; rfl
  | cons it rest ih =>
    intro acc hall
    have hit : itemValid c it = true := hall it (List.mem_cons_self _ _)
    have hrest : ∀ x ∈ rest, itemValid c x = true :=
      fun x hx => hall x (List.mem_cons_of_mem _ hx)
    cases it with
    | int n =>
      have hn : 0 ≤ n := by simpa [itemValid] using hit
      unfold addLoop
      dsimp only
      rw [if_pos hn, ih _ hrest]
      simp only [List.foldl_cons, itemIdxs]
      rw [Finset.insert_eq, Finset.union_comm {n} acc]
    | nonIntNum => simp [itemValid] at hit
    | str s =>
      simp only [itemValid, Option.isSome_iff_exists] at hit
      obtain ⟨⟨index, padCap⟩, hm⟩ := hit
      unfold addLoop
      dsimp only
      rw [hm]
      dsimp only
      rw [ih _ hrest]
      simp only [List.foldl_cons, itemIdxs, hm]
      rw [Finset.insert_eq, Finset.union_comm _ acc]
    | coll d =>
      have hd : c.isCompatible d = true := hit
      unfold addLoop
      dsimp only
      rw [if_pos hd, ih _ hrest]
      simp only [List.foldl_cons, itemIdxs]
    | other => simp [itemValid] at hit

theorem addLoop_err (c : Collection) :
    ∀ (items : List Item) (acc : Finset Int),
      (∃ it ∈ items, itemValid c it = false) →
      ∃ e, addLoop c acc items = .error e := by
  intro items
  induction items with
  | nil => rintro acc ⟨it, hmem, _⟩; cases hmem
  | cons it rest ih =>
    rintro acc ⟨bad, hmem, hbad⟩
    by_cases hv : itemValid c it = true
    · have hbadrest : ∃ x ∈ rest, itemValid c x = false := by
        rcases List.mem_cons.mp hmem with h | h
        · subst h; rw [hv] at hbad; cases hbad
        · exact ⟨bad, h, hbad⟩
      cases it with
      | int n =>
        have hn : 0 ≤ n := by simpa [itemValid] using hv
        unfold addLoop
        dsimp only
        rw [if_pos hn]
        exact ih _ hbadrest
      | nonIntNum => simp [itemValid] at hv
      | str s =>
        simp only [itemValid, Option.isSome_iff_exists] at hv
        obtain ⟨⟨index, padCap⟩, hm⟩ := hv
        unfold addLoop
        dsimp only
        rw [hm]
        exact ih _ hbadrest
      | coll d =>
        have hd : c.isCompatible d = true := hv
        unfold addLoop
        dsimp only
        rw [if_pos hd]
        exact ih _ hbadrest
      | other => simp [itemValid] at hv
    · rw [Bool.not_eq_true] at hv
      cases it with
      | int n =>
        have hn : ¬(0 ≤ n) := by simpa [itemValid] using hv
        exact ⟨_, by unfold addLoop; dsimp only; rw [if_neg hn]⟩
      | nonIntNum => exact ⟨_, rfl⟩
      | str s =>
        have hm : c.match s = none := by
          simpa [itemValid, Option.isSome_iff_exists, ← Option.eq_none_iff_forall_not_mem]
            using hv
        exact ⟨_, by unfold addLoop; dsimp only; rw [hm]⟩
      | coll d =>
        have hd : c.isCompatible d = false := by simpa [itemValid] using hv
        exact ⟨_, by unfold addLoop; dsimp only; rw [if_neg (by simp [hd])]⟩
      | other => exact ⟨_, rfl⟩

/-- C1: add is all-or-nothing.  When every item of the list is valid, the
call succeeds, returns the same instance (same head, tail and padding)
and its index set becomes the union of the old set with every item's
indexes, duplicates absorbed; when any item is invalid the call throws
and the post-call index set is exactly the pre-call one (the source
assigns this._indexes only after the whole validation loop). -/
theorem c1_add_all_or_nothing :
    ∀ (c : Collection) (items : List Item),
      ((∀ it ∈ items, itemValid c it = true) →
        c.add items =
          ({c with _indexes :=
              items.foldl (fun a it => a ∪ itemIdxs c it) c._indexes}, none))
      ∧ ((∃ it ∈ items, itemValid c it = false) →
        ∃ e, c.add items = (c, some e)) := by
  intro c items
  constructor
  · intro hall
    unfold Collection.add
    rw [addLoop_ok c items c._indexes hall]
  · intro hex
    obtain ⟨e, he⟩ := addLoop_err c items c._indexes hex
    exact ⟨e, by unfold Collection.add; rw [he]⟩

/-- Witness for C1: a concrete successful call whose result is the union,
and a concrete failing call that leaves the index set untouched. -/
theorem c1_witness :
    (⟨str "v", str "", 2, ({1} : Finset Int)⟩ : Collection).add
        [Item.int 3, Item.str (str "v07"),
         Item.coll ⟨str "v", str "", 2, ({9} : Finset Int)⟩]
      = (⟨str "v", str "", 2, ({1, 3, 7, 9} : Finset Int)⟩, none)
    ∧ ∃ e, (⟨str "v", str "", 2, ({1} : Finset Int)⟩ : Collection).add
        [Item.int 3, Item.int (-5)]
      = (⟨str "v", str "", 2, ({1} : Finset Int)⟩, some e) := by
  constructor
  · have h := (c1_add_all_or_nothing
      ⟨str "v", str "", 2, ({1} : Finset Int)⟩
      [Item.int 3, Item.str (str "v07"),
       Item.coll ⟨str "v", str "", 2, ({9} : Finset Int)⟩]).1 (by decide)
    rw [h]
    decide
  · exact (c1_add_all_or_nothing
      ⟨str "v", str "", 2, ({1} : Finset Int)⟩
      [Item.int 3, Item.int (-5)]).2 ⟨Item.int (-5), by decide, by decide⟩

/-! ### Claim C2: infrastructure for the match characterisation -/

theorem findSome?_eq_none_iff {α β : Type} {f : α → Option β} :
    ∀ {l : List α}, l.findSome? f = none ↔ ∀ a ∈ l, f a = none := by
  intro l
  induction l with
  | nil => simp
  | cons x t ih =>
    rw [List.findSome?_cons]
    cases hx : f x with
    | some v => simp [hx]
    | none => simpa [hx] using ih

theorem descRange_succ (n : Nat) : descRange (n + 1) = n :: descRange n := by
  unfold descRange
  rw [List.range_succ, List.reverse_append]
  rfl

theorem mem_descRange {a n : Nat} : a ∈ descRange n ↔ a < n := by
  unfold descRange; simp

/-- The first success of a search over n-1, n-2, ..., 0 is the largest
successful candidate: any candidate q with a non-none value is at most
the value recorded in the payload. -/
theorem findSome?_desc_ge {β : Type} {f : Nat → Option β} {g : β → Nat}
    (hpayload : ∀ a b, f a = some b → g b = a) :
    ∀ {n : Nat} {b : β}, (descRange n).findSome? f = some b →
      ∀ q < n, f q ≠ none → q ≤ g b := by
  intro n
  induction n with
  | zero => intro b _ q hq; omega
  | succ n ih =>
    intro b h q hq hfq
    rw [descRange_succ, List.findSome?_cons] at h
    cases hfn : f n with
    | some v =>
      rw [hfn] at h
      cases h
      rw [hpayload n b hfn]
      omega
    | none =>
      rw [hfn] at h
      by_cases hqn : q = n
      · subst hqn; exact absurd hfn hfq
      · exact ih h q (by omega) hfq

/-- Membership in the lazy digit-length candidate list. -/
theorem mem_digCands {d n : Nat} : d ∈ (List.range n).map (· + 1) ↔ 1 ≤ d ∧ d ≤ n := by
  simp only [List.mem_map, List.mem_range]
  constructor
  · rintro ⟨x, hx, rfl⟩; omega
  · intro hd; exact ⟨d - 1, by omega, by omega⟩

theorem lazyDigits_spec {tl r : List Char} {p d : Nat}
    (h : lazyDigits tl r = some (p, d)) :
    p ≤ zeroRunLen r ∧ 1 ≤ d ∧ d ≤ r.length - p ∧ ldGuard tl r p d = true := by
  obtain ⟨a, ha, hfa⟩ := List.exists_of_findSome?_eq_some h
  obtain ⟨b, hb, hfb⟩ := List.exists_of_findSome?_eq_some hfa
  rw [mem_descRange] at ha
  rw [mem_digCands] at hb
  by_cases hg : ldGuard tl r a b = true
  · rw [if_pos hg] at hfb
    obtain ⟨rfl, rfl⟩ : a = p ∧ b = d := by
      cases hfb; exact ⟨rfl, rfl⟩
    exact ⟨by omega, hb.1, hb.2, hg⟩
  · rw [if_neg hg] at hfb
    cases hfb

theorem lazyDigits_payload {tl r : List Char} :
    ∀ (a : Nat) (b : Nat × Nat),
      ((List.range (r.length - a)).map (· + 1)).findSome?
        (fun digLen => if ldGuard tl r a digLen then some (a, digLen) else none)
        = some b → b.1 = a := by
  intro a b h
  obtain ⟨x, _, hfx⟩ := List.exists_of_findSome?_eq_some h
  by_cases hg : ldGuard tl r a x = true
  · rw [if_pos hg] at hfx; cases hfx; rfl
  · rw [if_neg hg] at hfx; cases hfx

theorem lazyDigits_max {tl r : List Char} {p d : Nat}
    (h : lazyDigits tl r = some (p, d)) {q dq : Nat}
    (hq : q ≤ zeroRunLen r) (hd1 : 1 ≤ dq) (hd2 : dq ≤ r.length - q)
    (hg : ldGuard tl r q dq = true) : q ≤ p := by
  unfold lazyDigits at h
  have hmax := findSome?_desc_ge (g := Prod.fst) lazyDigits_payload h q (by omega)
  refine hmax ?_
  rw [ne_eq, findSome?_eq_none_iff]
  intro hall
  have := hall dq (mem_digCands.mpr ⟨hd1, hd2⟩)
  rw [if_pos hg] at this
  cases this

theorem lazyDigits_ne_none {tl r : List Char} {q dq : Nat}
    (hq : q ≤ zeroRunLen r) (hd1 : 1 ≤ dq) (hd2 : dq ≤ r.length - q)
    (hg : ldGuard tl r q dq = true) : lazyDigits tl r ≠ none := by
  unfold lazyDigits
  rw [ne_eq, findSome?_eq_none_iff]
  intro hall
  have h1 := hall q (mem_descRange.mpr (by omega))
  rw [findSome?_eq_none_iff] at h1
  have h2 := h1 dq (mem_digCands.mpr ⟨hd1, hd2⟩)
  rw [if_pos hg] at h2
  cases h2

/-- A character that carries no special meaning in a regex source: not
the dot and not any other ECMAScript pattern metacharacter. -/
def isPlainChar (c : Char) : Bool :=
  !(c ∈ ['.', '\\', '^', '$', '*', '+', '?', '(', ')', '[', ']',
         Char.ofNat 0x7b, Char.ofNat 0x7d, '|', '/'])

/-- For a fragment of plain characters (no metacharacters at all), the
atom-wise match is exactly string equality. -/
theorem atomsMatch_plain {pat : List Char} (hp : pat.all isPlainChar = true) :
    ∀ {u : List Char}, atomsMatch pat u = true ↔ pat = u := by
  induction pat with
  | nil =>
    intro u
    cases u with
    | nil => simp [atomsMatch]
    | cons q qs => simp [atomsMatch]
  | cons p ps ih =>
    intro u
    have hplain : isPlainChar p = true := by
      have := List.all_eq_true.mp hp p (List.mem_cons_self _ _)
      exact this
    have hps : ps.all isPlainChar = true :=
      List.all_eq_true.mpr fun x hx =>
        List.all_eq_true.mp hp x (List.mem_cons_of_mem _ hx)
    have hpdot : p ≠ '.' := by
      intro hv
      subst hv
      have hfalse : isPlainChar '.' = false := by decide
      rw [hfalse] at hplain
      cases hplain
    cases u with
    | nil => simp [atomsMatch]
    | cons q qs =>
      have hstep : atomsMatch (p :: ps) (q :: qs)
          = (atomMatches p q && atomsMatch ps qs) := by
        simp only [atomsMatch, List.length_cons, List.zip_cons_cons, List.all_cons]
        rw [show (ps.length + 1 == qs.length + 1) = (ps.length == qs.length) by
          simp [Nat.beq_eq]]
        cases atomMatches p q <;> cases (ps.length == qs.length) <;>
          simp [Bool.and_comm, Bool.and_assoc, Bool.and_left_comm]
      rw [hstep]
      have hatom : atomMatches p q = true ↔ p = q := by
        unfold atomMatches
        rw [if_neg hpdot]
        simp
      constructor
      · intro hand
        have h1 := (Bool.and_eq_true _ _).mp hand
        have hq := hatom.mp h1.1
        have hqs := (ih hps).mp h1.2
        rw [hq, hqs]
      · intro heq
        cases heq
        exact (Bool.and_eq_true _ _).mpr ⟨hatom.mpr rfl, (ih hps).mpr rfl⟩

theorem zeroRunLen_le (r : List Char) : zeroRunLen r ≤ r.length := by
  unfold zeroRunLen
  exact (List.takeWhile_sublist _).length_le

theorem take_all_zero {r : List Char} {p : Nat} (hp : p ≤ zeroRunLen r) :
    (r.take p).all (fun c => c = '0') = true := by
  induction r generalizing p with
  | nil => simp
  | cons x t ih =>
    cases p with
    | zero => simp
    | succ p =>
      unfold zeroRunLen at hp
      by_cases hx : x = '0'
      · rw [List.takeWhile_cons, if_pos (by simp [hx])] at hp
        simp only [List.length_cons, Nat.succ_le_succ_iff] at hp
        simp only [List.take_succ_cons, List.all_cons]
        exact (Bool.and_eq_true _ _).mpr ⟨by simp [hx], ih hp⟩
      · rw [List.takeWhile_cons, if_neg (by simp [hx])] at hp
        simp at hp

theorem consumeAtoms_plain {hd : List Char} (hp : hd.all isPlainChar = true)
    {s r : List Char} : consumeAtoms hd s = some r ↔ s = hd ++ r := by
  unfold consumeAtoms
  constructor
  · intro h
    by_cases hm : atomsMatch hd (s.take hd.length) = true
    · rw [if_pos hm] at h
      have heq := (atomsMatch_plain hp).mp hm
      cases h
      conv_lhs => rw [← List.take_append_drop hd.length s]
      rw [← heq]
    · rw [if_neg hm] at h; cases h
  · intro h
    subst h
    have htake : (hd ++ r).take hd.length = hd := List.take_left' rfl
    rw [htake, if_pos ((atomsMatch_plain hp).mpr rfl)]
    rw [List.drop_left]

theorem middle_cancel {hd tl m1 m2 : List Char}
    (h : hd ++ m1 ++ tl = hd ++ m2 ++ tl) : m1 = m2 := by
  rw [List.append_assoc, List.append_assoc] at h
  exact List.append_cancel_right (List.append_cancel_left h)

theorem drop_take_middle {m tl : List Char} {p : Nat} (hp : p ≤ m.length) :
    ((m ++ tl).drop p).take (m.length - p) = m.drop p := by
  rw [List.drop_append_of_le_length hp]
  exact List.take_left' (by simp)

theorem all_digits_drop {m : List Char} (h : m.all Char.isDigit = true) (p : Nat) :
    (m.drop p).all Char.isDigit = true :=
  List.all_eq_true.mpr fun x hx =>
    List.all_eq_true.mp h x (List.mem_of_mem_drop hx)

theorem zeroRunLen_pos {r : List Char} (h : r.head? = some '0') :
    1 ≤ zeroRunLen r := by
  cases r with
  | nil => cases h
  | cons x t =>
    cases h
    unfold zeroRunLen
    rw [List.takeWhile_cons, if_pos (by simp)]
    simp

theorem head_take_eq {r : List Char} {n : Nat} (hn : 1 ≤ n) :
    (r.take n).head? = r.head? := by
  cases r with
  | nil => simp
  | cons x t =>
    cases n with
    | zero => omega
    | succ k => simp

theorem head_zero_of_take_all {r : List Char} {p : Nat}
    (hp : p ≤ zeroRunLen r) (h1 : 1 ≤ p) (hr : r ≠ []) : r.head? = some '0' := by
  have hall := take_all_zero hp
  cases r with
  | nil => exact absurd rfl hr
  | cons x t =>
    cases p with
    | zero => omega
    | succ k =>
      rw [List.take_succ_cons, List.all_cons] at hall
      have hx : x = '0' := by
        have := (Bool.and_eq_true _ _).mp hall
        simpa using this.1
      simp [hx]

/-- The padding acceptance rule of Collection.match as the claim states
it: with padding zero the numeral must have no leading zero except for
the bare numeral 0; otherwise its length must equal the padding. -/
def padRule (padding : Nat) (m : List Char) : Prop :=
  if padding = 0 then (m.head? = some '0' → m = ['0']) else m.length = padding

/-- C2 (amended): head and tail are spliced into the match regex
unescaped, so they behave as literal text only when they contain no
regex metacharacters.  Under that hypothesis, match succeeds exactly when
the string is head, then a nonempty numeral matched non-greedily, then
tail, with the numeral obeying the padding rule: with padding 0 no
leading zero (a bare 0 is accepted), otherwise the numeral length equals
the padding. -/
theorem c2_match_characterization :
    ∀ (c : Collection) (s : List Char),
      c.head.all isPlainChar = true → c.tail.all isPlainChar = true →
      ((c.match s).isSome = true ↔
        ∃ m : List Char, s = c.head ++ m ++ c.tail ∧ m ≠ []
          ∧ m.all Char.isDigit = true ∧ padRule c.padding m) := by
  intro c s hh ht
  unfold Collection.match
  cases hc : consumeAtoms c.head s with
  | none =>
    refine iff_of_false (by simp) ?_
    rintro ⟨m, hm, -, -, -⟩
    have : consumeAtoms c.head s = some (m ++ c.tail) :=
      (consumeAtoms_plain hh).mpr (by rw [hm, List.append_assoc])
    rw [hc] at this
    cases this
  | some r =>
    have hsr : s = c.head ++ r := (consumeAtoms_plain hh).mp hc
    cases hld : lazyDigits c.tail r with
    | none =>
      dsimp only
      rw [hld]
      refine iff_of_false (by simp) ?_
      rintro ⟨m, hm, hne, hdig, -⟩
      have hrm : r = m ++ c.tail := by
        have hcat : c.head ++ r = c.head ++ (m ++ c.tail) := by
          rw [← hsr, hm, List.append_assoc]
        exact List.append_cancel_left hcat
      have hml : 1 ≤ m.length := by
        cases m with
        | nil => exact absurd rfl hne
        | cons _ _ => simp
      have hrl : r.length = m.length + c.tail.length := by rw [hrm]; simp
      set q : Nat := min (zeroRunLen r) (m.length - 1) with hq
      have hguard : ldGuard c.tail r q (m.length - q) = true := by
        unfold ldGuard
        refine (Bool.and_eq_true _ _).mpr ⟨?_, ?_⟩
        · rw [hrm, drop_take_middle (by omega)]
          exact all_digits_drop hdig q
        · rw [show q + (m.length - q) = m.length by omega, hrm,
            List.drop_left]
          exact (atomsMatch_plain ht).mpr rfl
      exact absurd hld
        (lazyDigits_ne_none (by omega) (by omega) (by omega) hguard)
    | some pd =>
      obtain ⟨p, d⟩ := pd
      dsimp only
      rw [hld]
      dsimp only
      obtain ⟨hpz, hd1, hdr, hguard⟩ := lazyDigits_spec hld
      have hdropt : r.drop (p + d) = c.tail :=
        ((atomsMatch_plain ht).mp ((Bool.and_eq_true _ _).mp hguard).2).symm
      have hchunk : ((r.drop p).take d).all Char.isDigit = true :=
        ((Bool.and_eq_true _ _).mp hguard).1
      obtain ⟨m, hm⟩ : ∃ m : List Char, m = r.take (p + d) := ⟨_, rfl⟩
      have hrsplit : r = m ++ c.tail := by
        rw [hm, ← hdropt, List.take_append_drop]
      have hml : m.length = p + d := by
        rw [hm, List.length_take]
        have : p + d ≤ r.length := by omega
        omega
      have hmne : m ≠ [] := by
        intro hnil
        rw [hnil] at hml
        simp at hml
        omega
      have hmdig : m.all Char.isDigit = true := by
        rw [hm, List.take_add]
        rw [List.all_append]
        refine (Bool.and_eq_true _ _).mpr ⟨?_, hchunk⟩
        refine List.all_eq_true.mpr fun x hx => ?_
        have hx0 := List.all_eq_true.mp (take_all_zero hpz) x hx
        have : x = '0' := by simpa using hx0
        rw [this]; decide
      have hsm : s = c.head ++ m ++ c.tail := by
        rw [hsr, hrsplit, List.append_assoc]
      by_cases hpad : c.padding = 0
      · rw [if_pos hpad]
        by_cases hcap : r.take p ≠ []
        · rw [if_pos hcap]
          refine iff_of_false (by simp) ?_
          rintro ⟨m2, hm2, hne2, hdig2, hrule2⟩
          have hmm : m2 = m := middle_cancel (by rw [← hm2, ← hsm])
          have hp1 : 1 ≤ p := by
            rcases Nat.eq_zero_or_pos p with h0 | h0
            · rw [h0] at hcap; simp at hcap
            · omega
          have hrne : r ≠ [] := by
            intro h0
            rw [h0] at hcap
            simp at hcap
          have hhead : m.head? = some '0' := by
            rw [hm, head_take_eq (by omega)]
            exact head_zero_of_take_all hpz hp1 hrne
          rw [padRule, if_pos hpad] at hrule2
          have hm0 : m = ['0'] := by
            rw [← hmm] at hhead ⊢
            exact hrule2 hhead
          rw [hm0] at hml
          simp at hml
          omega
        · rw [if_neg hcap]
          refine iff_of_true rfl ?_
          push_neg at hcap
          have hp0 : p = 0 := by
            rcases List.take_eq_nil_iff.mp hcap with h0 | h0
            · exact h0
            · exfalso
              rw [h0] at hrsplit
              exact hmne (List.append_eq_nil.mp hrsplit.symm).1
          refine ⟨m, hsm, hmne, hmdig, ?_⟩
          rw [padRule, if_pos hpad]
          intro hhead
          by_contra hnot
          have hml2 : 2 ≤ m.length := by
            cases hmc : m with
            | nil => exact absurd hmc hmne
            | cons x t =>
              cases t with
              | nil =>
                rw [hmc] at hhead
                cases hhead
                rw [hmc] at hnot
                exact absurd rfl hnot
              | cons y u => simp
          have hguard1 : ldGuard c.tail r 1 (m.length - 1) = true := by
            unfold ldGuard
            refine (Bool.and_eq_true _ _).mpr ⟨?_, ?_⟩
            · rw [hrsplit, drop_take_middle (by omega)]
              exact all_digits_drop hmdig 1
            · rw [show 1 + (m.length - 1) = m.length by omega, hrsplit,
                List.drop_left]
              exact (atomsMatch_plain ht).mpr rfl
          have hzr : 1 ≤ zeroRunLen r := by
            apply zeroRunLen_pos
            rw [← head_take_eq (r := r) (n := p + d) (by omega), ← hm]
            exact hhead
          have hrl : r.length = m.length + c.tail.length := by
            rw [hrsplit]; simp
          have := lazyDigits_max hld hzr (by omega) (by omega) hguard1
          omega
      · rw [if_neg hpad]
        by_cases hlen : m.length ≠ c.padding
        · rw [if_pos (by rw [← hm]; exact hlen)]
          refine iff_of_false (by simp) ?_
          rintro ⟨m2, hm2, hne2, hdig2, hrule2⟩
          have hmm : m2 = m := middle_cancel (by rw [← hm2, ← hsm])
          rw [padRule, if_neg hpad] at hrule2
          rw [hmm] at hrule2
          exact hlen hrule2
        · push_neg at hlen
          rw [if_neg (by rw [← hm]; exact fun hx => hx hlen)]
          refine iff_of_true rfl ?_
          exact ⟨m, hsm, hmne, hmdig, by rw [padRule, if_neg hpad]; exact hlen⟩

/-- C2 counterexample: the claim asserts that head and tail act as
literal text with metacharacters escaped, but the source splices them
into the regex unescaped.  With head "a." the dot matches any character,
so match accepts the string "aX1" even though no string of the form
head + numeral + tail equals it. -/
theorem c2_counterexample :
    ((⟨str "a.", str "", 0, ∅⟩ : Collection).match (str "aX1")).isSome = true
    ∧ ¬∃ m : List Char, str "aX1" = str "a." ++ m ++ str ""
        ∧ m ≠ [] ∧ m.all Char.isDigit = true := by
  constructor
  · decide
  · rintro ⟨m, hm, -, -⟩
    have h1 : (str "aX1").get? 1 = some 'X' := by decide
    rw [hm] at h1
    have h2 : (str "a." ++ m ++ str "").get? 1 = some '.' := by
      rfl
    rw [h1] at h2
    cases h2

/-- Witness for C2 at a concrete plain head and tail. -/
theorem c2_witness :
    ((⟨str "v", str "w", 2, ∅⟩ : Collection).match (str "v07w")).isSome = true ↔
      ∃ m : List Char, str "v07w" = str "v" ++ m ++ str "w" ∧ m ≠ []
        ∧ m.all Char.isDigit = true ∧ padRule 2 m :=
  c2_match_characterization ⟨str "v", str "w", 2, ∅⟩ (str "v07w")
    (by decide) (by decide)

/-! ### Claim C8: format -/

/-- The opening brace character. -/
def lbrace : Char := Char.ofNat 0x7b

/-- The closing brace character. -/
def rbrace : Char := Char.ofNat 0x7d

theorem char_toNat_ofNat {n : Nat} (h : n.isValidChar) :
    (Char.ofNat n).toNat = n := by
  unfold Char.ofNat
  rw [dif_pos h]
  unfold Char.ofNatAux Char.toNat
  simp [UInt32.toNat]

theorem charLower_idem (c : Char) : c.toLower.toLower = c.toLower := by
  unfold Char.toLower
  by_cases h : c.toNat ≥ 65 ∧ c.toNat ≤ 90
  · rw [if_pos h]
    have ht : (Char.ofNat (c.toNat + 32)).toNat = c.toNat + 32 :=
      char_toNat_ofNat (by left; omega)
    rw [if_neg (by rw [ht]; omega)]
  · rw [if_neg h, if_neg h]

/-- String.prototype.toLowerCase restricted to the basic Latin mapping
(the only case mapping exercised by placeholder names, which are ASCII
word characters). -/
def toLowerStr (l : List Char) : List Char := l.map Char.toLower

theorem toLowerStr_append (a b : List Char) :
    toLowerStr (a ++ b) = toLowerStr a ++ toLowerStr b := List.map_append _ _ _

theorem toLowerStr_idem (l : List Char) : toLowerStr (toLowerStr l) = toLowerStr l := by
  unfold toLowerStr
  rw [List.map_map]
  exact List.map_congr_left fun c _ => charLower_idem c

/-- Fuel-indexed scan for String.prototype.includes (structural so it
reduces inside the kernel). -/
def containsSubF : Nat → List Char → List Char → Bool
  | 0, _, _ => false
  | fuel + 1, s, key =>
    if key.isPrefixOf s then true
    else
      match s with
      | [] => false
      | _ :: rest => containsSubF fuel rest key

/-- String.prototype.includes: whether key occurs as a contiguous
substring. -/
def containsSub (s key : List Char) : Bool :=
  containsSubF (s.length + 1) s key

theorem containsSubF_irrel : ∀ (fuel1 fuel2 : Nat) (s key : List Char),
    s.length < fuel1 → s.length < fuel2 →
    containsSubF fuel1 s key = containsSubF fuel2 s key := by
  intro fuel1
  induction fuel1 with
  | zero => intro fuel2 s key h1 _; omega
  | succ f ih =>
    intro fuel2 s key h1 h2
    cases fuel2 with
    | zero => omega
    | succ f2 =>
      show (if key.isPrefixOf s then true else _)
        = (if key.isPrefixOf s then true else _)
      by_cases hp : key.isPrefixOf s
      · rw [if_pos hp, if_pos hp]
      · rw [if_neg hp, if_neg hp]
        cases s with
        | nil => rfl
        | cons ch rest =>
          simp only [List.length_cons] at h1 h2
          exact ih f2 rest key (by omega) (by omega)

theorem containsSub_eq (s key : List Char) :
    containsSub s key =
      (if key.isPrefixOf s then true
       else
         match s with
         | [] => false
         | _ :: rest => containsSub rest key) := by
  show containsSubF (s.length + 1) s key = _
  by_cases hp : key.isPrefixOf s
  · show (if key.isPrefixOf s then true else _) = _
    rw [if_pos hp, if_pos hp]
  · show (if key.isPrefixOf s then true else _) = _
    rw [if_neg hp, if_neg hp]
    cases s with
    | nil => rfl
    | cons ch rest =>
      show containsSubF (rest.length + 1) rest key = containsSub rest key
      rfl

/-- The value of the padding placeholder: %0Nd when padding is N > 0,
else %d (src/seqo.js line 713). -/
def padStrValue (padding : Nat) : List Char :=
  if padding = 0 then str "%d" else str "%0" ++ natDigits padding ++ str "d"

/-- The range value (src/seqo.js lines 731-739): empty for no indexes,
the single index for one, else first-last. -/
def rangeValue (c : Collection) : List Char :=
  let l := c.indexes
  if l.length = 0 then []
  else if l.length = 1 then jsString (l.head?.getD 0)
  else jsString (l.head?.getD 0) ++ '-' :: jsString (l.getLast?.getD 0)

/-- Array.prototype.join(", "). -/
def joinComma : List (List Char) → List Char
  | [] => []
  | [x] => x
  | x :: y :: rest => x ++ str ", " ++ joinComma (y :: rest)

/-- The ranges value (src/seqo.js lines 742-748): when separate() yields
more than one piece, each piece is formatted with the pattern consisting
of exactly the range placeholder, which substitutes to that piece's range
value; otherwise the collection's own range value is used.  Empty entries
are filtered out and the rest joined with comma-space. -/
def rangesValue (c : Collection) : List Char :=
  let sep := c.separate
  let rs := if 1 < sep.length then sep.map rangeValue else [rangeValue c]
  joinComma (rs.filter (fun r => r ≠ []))

/-- The holes value (src/seqo.js line 726): the holes collection
formatted with the pattern consisting of exactly the ranges placeholder
(which substitutes to its ranges value), or the empty string when holes
is null. -/
def holesValue (c : Collection) : List Char :=
  match c.holes with
  | some h => rangesValue h
  | none => []

/-- The placeholder names known to format. -/
def recognizedKeys : List (List Char) :=
  [str "head", str "tail", str "padding", str "holes", str "range", str "ranges"]

/-- The dataLookup object of format is built with Object.fromEntries
(src/seqo.js line 716) and therefore inherits from Object.prototype, and
the replacement callback tests dataLookup[normalizedKey] !== undefined
(line 752), which walks the prototype chain.  The key has already been
lowercased and property names are case-sensitive, so of the own
properties of Object.prototype exactly the all-lowercase names
"constructor" (the Object constructor function, whose string coercion in
a template replacement is its native-function source text) and
"__proto__" (Object.prototype itself, coercing to "[object Object]") are
reachable with a non-undefined value; every other key misses the whole
chain. -/
def protoLookup (k : List Char) : Option (List Char) :=
  if k = str "constructor" then
    some (str "function Object() \x7b [native code] \x7d")
  else if k = str "__proto__" then some (str "[object Object]")
  else none

/-- The case-insensitive placeholder lookup built by format
(src/seqo.js lines 710-748): head, tail and padding are always present;
holes, range and ranges are computed only when the lowercased pattern pl
contains the corresponding placeholder text (the lazy-computation guards
of the source).  Keys are normalised to lower case, making the lookup
case-insensitive on the placeholder name.  A key that is none of the six
own entries falls through to the Object.prototype chain of the
dataLookup object (protoLookup above). -/
def formatLookup (c : Collection) (pl : List Char) (key : List Char) :
    Option (List Char) :=
  let k := toLowerStr key
  if k = str "head" then some c.head
  else if k = str "tail" then some c.tail
  else if k = str "padding" then some (padStrValue c.padding)
  else if k = str "holes" then
    (if containsSub pl (str "{holes}") then some (holesValue c) else none)
  else if k = str "range" then
    (if containsSub pl (str "{range}") || containsSub pl (str "{ranges}")
      then some (rangeValue c) else none)
  else if k = str "ranges" then
    (if containsSub pl (str "{ranges}") then some (rangesValue c) else none)
  else protoLookup k

/-- The global regex replace of src/seqo.js lines 751-754 with the
pattern consisting of an opening brace, one or more word characters
captured, and a closing brace: scan left to right; at each opening brace
whose following maximal word-character run is nonempty and immediately
followed by a closing brace, substitute the looked-up value when the key
is known and keep the placeholder text verbatim otherwise, then continue
after the closing brace; all other characters are copied unchanged. -/
def replaceScanF (lk : List Char → Option (List Char)) : Nat → List Char → List Char
  | 0, _ => []
  | fuel + 1, l =>
    match l with
    | [] => []
    | ch :: rest =>
      if ch = lbrace then
        (let w := rest.takeWhile isWordChar
         if w ≠ [] ∧ rest.get? w.length = some rbrace then
           ((lk w).getD (lbrace :: (w ++ [rbrace])))
             ++ replaceScanF lk fuel (rest.drop (w.length + 1))
         else ch :: replaceScanF lk fuel rest)
      else ch :: replaceScanF lk fuel rest

def replaceScan (lk : List Char → Option (List Char)) (l : List Char) : List Char :=
  replaceScanF lk (l.length + 1) l

theorem replaceScanF_irrel (lk : List Char → Option (List Char)) :
    ∀ (fuel1 fuel2 : Nat) (l : List Char),
      l.length < fuel1 → l.length < fuel2 →
      replaceScanF lk fuel1 l = replaceScanF lk fuel2 l := by
  intro fuel1
  induction fuel1 with
  | zero => intro fuel2 l h1 _; omega
  | succ f ih =>
    intro fuel2 l h1 h2
    cases fuel2 with
    | zero => omega
    | succ f2 =>
      cases l with
      | nil => rfl
      | cons ch rest =>
        simp only [List.length_cons] at h1 h2
        show (if ch = lbrace then _ else ch :: replaceScanF lk f rest)
          = (if ch = lbrace then _ else ch :: replaceScanF lk f2 rest)
        by_cases hb : ch = lbrace
        · rw [if_pos hb, if_pos hb]
          by_cases hcond : rest.takeWhile isWordChar ≠ []
              ∧ rest.get? (rest.takeWhile isWordChar).length = some rbrace
          · rw [if_pos hcond, if_pos hcond,
              ih f2 (rest.drop ((rest.takeWhile isWordChar).length + 1))
                (by simp only [List.length_drop]; omega)
                (by simp only [List.length_drop]; omega)]
          · rw [if_neg hcond, if_neg hcond, ih f2 rest (by omega) (by omega)]
        · rw [if_neg hb, if_neg hb, ih f2 rest (by omega) (by omega)]

theorem replaceScan_nil_eq (lk : List Char → Option (List Char)) :
    replaceScan lk [] = [] := rfl

theorem replaceScan_cons_eq (lk : List Char → Option (List Char))
    (ch : Char) (rest : List Char) :
    replaceScan lk (ch :: rest) =
      (if ch = lbrace then
        (let w := rest.takeWhile isWordChar
         if w ≠ [] ∧ rest.get? w.length = some rbrace then
           ((lk w).getD (lbrace :: (w ++ [rbrace])))
             ++ replaceScan lk (rest.drop (w.length + 1))
         else ch :: replaceScan lk rest)
      else ch :: replaceScan lk rest) := by
  show (if ch = lbrace then _ else ch :: replaceScanF lk (rest.length + 1) rest) = _
  by_cases hb : ch = lbrace
  · rw [if_pos hb, if_pos hb]
    simp only [List.length_cons]
    by_cases hcond : rest.takeWhile isWordChar ≠ []
        ∧ rest.get? (rest.takeWhile isWordChar).length = some rbrace
    · rw [if_pos hcond, if_pos hcond,
        replaceScanF_irrel lk (rest.length + 1)
          ((rest.drop ((rest.takeWhile isWordChar).length + 1)).length + 1)
          (rest.drop ((rest.takeWhile isWordChar).length + 1))
          (by simp only [List.length_drop]; omega)
          (by omega)]
      rfl
    · rw [if_neg hcond, if_neg hcond]
      rfl
  · rw [if_neg hb, if_neg hb]
    rfl

/-- Collection.format (src/seqo.js lines 708-755): build the
case-insensitive lookup from the pattern, then replace every
brace-delimited word-character run. -/
def Collection.format (c : Collection) (pattern : List Char) : List Char :=
  replaceScan (formatLookup c (toLowerStr pattern)) pattern

theorem replaceScan_cons_other {ch : Char} (h : ch ≠ lbrace)
    (lk : List Char → Option (List Char)) (rest : List Char) :
    replaceScan lk (ch :: rest) = ch :: replaceScan lk rest := by
  rw [replaceScan_cons_eq, if_neg h]

theorem replaceScan_literal {pre : List Char} (h : ∀ ch ∈ pre, ch ≠ lbrace)
    (lk : List Char → Option (List Char)) (rest : List Char) :
    replaceScan lk (pre ++ rest) = pre ++ replaceScan lk rest := by
  induction pre with
  | nil => rfl
  | cons ch t ih =>
    rw [List.cons_append,
      replaceScan_cons_other (h ch (List.mem_cons_self _ _)) lk (t ++ rest),
      ih fun x hx => h x (List.mem_cons_of_mem _ hx)]
    rfl

theorem replaceScan_id {l : List Char} (h : ∀ ch ∈ l, ch ≠ lbrace)
    (lk : List Char → Option (List Char)) : replaceScan lk l = l := by
  have h0 : replaceScan lk [] = [] := rfl
  have hlit := replaceScan_literal h lk []
  rw [List.append_nil, h0, List.append_nil] at hlit
  exact hlit

theorem takeWhile_word_stop {w : List Char} (hw : w.all isWordChar = true)
    {ch : Char} (hch : isWordChar ch = false) (suf : List Char) :
    (w ++ ch :: suf).takeWhile isWordChar = w := by
  induction w with
  | nil => simp [List.takeWhile_cons, hch]
  | cons x t ih =>
    have hx : isWordChar x = true := by
      have := List.all_eq_true.mp hw x (List.mem_cons_self _ _)
      exact this
    have ht : t.all isWordChar = true :=
      List.all_eq_true.mpr fun y hy => List.all_eq_true.mp hw y (List.mem_cons_of_mem _ hy)
    rw [List.cons_append, List.takeWhile_cons, if_pos hx, ih ht]

theorem replaceScan_ph {w : List Char} (hw1 : w ≠ []) (hw2 : w.all isWordChar = true)
    (lk : List Char → Option (List Char)) (suf : List Char) :
    replaceScan lk (lbrace :: (w ++ rbrace :: suf))
      = ((lk w).getD (lbrace :: (w ++ [rbrace]))) ++ replaceScan lk suf := by
  have hrb : isWordChar rbrace = false := by decide
  have htw : (w ++ rbrace :: suf).takeWhile isWordChar = w :=
    takeWhile_word_stop hw2 hrb suf
  have hget : (w ++ rbrace :: suf).get? w.length = some rbrace := by
    rw [List.get?_append_right (le_refl _)]
    simp
  have hdrop : (w ++ rbrace :: suf).drop (w.length + 1) = suf := by
    rw [List.drop_append 1]
    rfl
  rw [replaceScan_cons_eq]
  rw [if_pos rfl]
  simp only [htw, hget, hdrop]
  rw [if_pos ⟨hw1, trivial⟩]

theorem exists_word_decomp {m : List Char} (h : ∃ x ∈ m, isWordChar x = false) :
    ∃ w0 bad m2, m = w0 ++ bad :: m2 ∧ w0.all isWordChar = true
      ∧ isWordChar bad = false := by
  induction m with
  | nil => obtain ⟨x, hx, _⟩ := h; cases hx
  | cons ch rest ih =>
    by_cases hch : isWordChar ch = true
    · have hrest : ∃ x ∈ rest, isWordChar x = false := by
        obtain ⟨x, hx, hxw⟩ := h
        rcases List.mem_cons.mp hx with rfl | hx2
        · rw [hch] at hxw; cases hxw
        · exact ⟨x, hx2, hxw⟩
      obtain ⟨w0, bad, m2, heq, hw0, hbad⟩ := ih hrest
      exact ⟨ch :: w0, bad, m2, by rw [heq, List.cons_append],
        by rw [List.all_cons, hch, hw0]; rfl, hbad⟩
    · exact ⟨[], ch, rest, rfl, rfl, by simpa using hch⟩

theorem replaceScan_malformed {m : List Char} (hbad : ∃ x ∈ m, isWordChar x = false)
    (hlb : ∀ ch ∈ m, ch ≠ lbrace) (hrb : ∀ ch ∈ m, ch ≠ rbrace)
    (lk : List Char → Option (List Char)) (suf : List Char) :
    replaceScan lk (lbrace :: (m ++ rbrace :: suf))
      = lbrace :: (m ++ rbrace :: replaceScan lk suf) := by
  obtain ⟨w0, bad, m2, heq, hw0, hbadw⟩ := exists_word_decomp hbad
  subst heq
  have htw : ((w0 ++ bad :: m2) ++ rbrace :: suf).takeWhile isWordChar = w0 := by
    rw [List.append_assoc, List.cons_append]
    exact takeWhile_word_stop hw0 hbadw _
  have hget : ((w0 ++ bad :: m2) ++ rbrace :: suf).get? w0.length = some bad := by
    rw [List.append_assoc, List.cons_append, List.get?_append_right (le_refl _)]
    simp
  have hbne : bad ≠ rbrace := hrb bad (by simp)
  rw [replaceScan_cons_eq]
  rw [if_pos rfl]
  simp only [htw, hget]
  rw [if_neg (by rintro ⟨-, hc⟩; exact hbne (by injection hc))]
  rw [replaceScan_literal hlb lk (rbrace :: suf),
    replaceScan_cons_other (by decide) lk suf]

theorem containsSub_of_middle (a key b : List Char) :
    containsSub (a ++ (key ++ b)) key = true := by
  induction a with
  | nil =>
    rw [List.nil_append, containsSub_eq]
    rw [if_pos (by rw [List.isPrefixOf_iff_prefix]; exact List.prefix_append _ _)]
  | cons ch t ih =>
    rw [List.cons_append, containsSub_eq]
    split
    · rfl
    · exact ih

theorem formatLookup_lower (c : Collection) (pl w : List Char) :
    formatLookup c pl (toLowerStr w) = formatLookup c pl w := by
  unfold formatLookup
  rw [toLowerStr_idem]

theorem formatLookup_present {c : Collection} {pl k : List Char}
    (hk : k ∈ recognizedKeys)
    (hsub : containsSub pl (lbrace :: (k ++ [rbrace])) = true) :
    (formatLookup c pl k).isSome = true := by
  have hlow : ∀ x ∈ recognizedKeys, toLowerStr x = x := by decide
  have hkl : toLowerStr k = k := hlow k hk
  simp only [recognizedKeys, List.mem_cons, List.mem_singleton] at hk
  rcases hk with rfl | rfl | rfl | rfl | rfl | rfl | hfalse
  rotate_right
  · cases hfalse
  · unfold formatLookup; rw [hkl]; rfl
  · unfold formatLookup; rw [hkl]; rfl
  · unfold formatLookup; rw [hkl]; rfl
  · unfold formatLookup
    rw [hkl]
    have : containsSub pl (str "{holes}") = true := by
      have he : lbrace :: (str "holes" ++ [rbrace]) = str "{holes}" := by decide
      rw [← he]
      exact hsub
    simp only [this]
    rfl
  · unfold formatLookup
    rw [hkl]
    have : containsSub pl (str "{range}") = true := by
      have he : lbrace :: (str "range" ++ [rbrace]) = str "{range}" := by decide
      rw [← he]
      exact hsub
    simp only [this, Bool.true_or]
    rfl
  · unfold formatLookup
    rw [hkl]
    have : containsSub pl (str "{ranges}") = true := by
      have he : lbrace :: (str "ranges" ++ [rbrace]) = str "{ranges}" := by decide
      rw [← he]
      exact hsub
    simp only [this]
    rfl

theorem formatLookup_absent {c : Collection} {pl w : List Char}
    (hk : toLowerStr w ∉ recognizedKeys) :
    formatLookup c pl w = protoLookup (toLowerStr w) := by
  unfold formatLookup
  have h1 : ¬(toLowerStr w = str "head") := fun hx => hk (by rw [hx]; simp [recognizedKeys])
  have h2 : ¬(toLowerStr w = str "tail") := fun hx => hk (by rw [hx]; simp [recognizedKeys])
  have h3 : ¬(toLowerStr w = str "padding") := fun hx => hk (by rw [hx]; simp [recognizedKeys])
  have h4 : ¬(toLowerStr w = str "holes") := fun hx => hk (by rw [hx]; simp [recognizedKeys])
  have h5 : ¬(toLowerStr w = str "range") := fun hx => hk (by rw [hx]; simp [recognizedKeys])
  have h6 : ¬(toLowerStr w = str "ranges") := fun hx => hk (by rw [hx]; simp [recognizedKeys])
  rw [if_neg h1, if_neg h2, if_neg h3, if_neg h4, if_neg h5, if_neg h6]

theorem toLowerStr_pattern (pre X suf : List Char) :
    toLowerStr (pre ++ lbrace :: (X ++ rbrace :: suf))
      = toLowerStr pre ++ lbrace :: (toLowerStr X ++ rbrace :: toLowerStr suf) := by
  unfold toLowerStr
  rw [List.map_append, List.map_cons, List.map_append, List.map_cons]
  have h1 : Char.toLower lbrace = lbrace := by decide
  have h2 : Char.toLower rbrace = rbrace := by decide
  rw [h1, h2]

theorem charLower_word {c : Char} (h : isWordChar c = true) :
    isWordChar c.toLower = true := by
  unfold Char.toLower
  by_cases hc : c.toNat ≥ 65 ∧ c.toNat ≤ 90
  · rw [if_pos hc]
    have ht : (Char.ofNat (c.toNat + 32)).toNat = c.toNat + 32 :=
      char_toNat_ofNat (by left; omega)
    unfold isWordChar
    simp only [Bool.or_eq_true, Bool.and_eq_true, decide_eq_true_eq, ht]
    left; left; right
    exact ⟨by omega, by omega⟩
  · rw [if_neg hc]
    exact h

theorem toLowerStr_word {w : List Char} (h : w.all isWordChar = true) :
    (toLowerStr w).all isWordChar = true := by
  unfold toLowerStr
  rw [List.all_map]
  exact List.all_eq_true.mpr fun c hc =>
    charLower_word (List.all_eq_true.mp h c hc)

theorem toLowerStr_ne_nil {w : List Char} (h : w ≠ []) : toLowerStr w ≠ [] := by
  unfold toLowerStr
  simpa using h

/-- C8 counterexample to the claim as stated: the placeholder whose
lowercased name is "constructor" is not recognised by format, yet it is
not left verbatim either, because the prototype-chain lookup finds the
inherited Object constructor and substitutes its string coercion; the
"__proto__" placeholder likewise substitutes "[object Object]". -/
theorem c8_counterexample :
    ((⟨[], [], 0, (∅ : Finset Int)⟩ : Collection).format (str "{constructor}")
        = str "function Object() \x7b [native code] \x7d")
    ∧ ((⟨[], [], 0, (∅ : Finset Int)⟩ : Collection).format (str "{constructor}")
        ≠ str "{constructor}")
    ∧ ((⟨[], [], 0, (∅ : Finset Int)⟩ : Collection).format (str "{__proto__}")
        = str "[object Object]") := by
  exact ⟨by rfl, by decide, by rfl⟩

/-- C8: amended placeholder substitution.  Replacing a recognised
placeholder name by its lowercase form leaves the output unchanged; an
unrecognised placeholder whose lowercased name also misses the
Object.prototype chain of the lookup object is left verbatim with the
literal text around it preserved exactly; an unrecognised placeholder
whose lowercased name hits the prototype chain ("constructor" or
"__proto__") is substituted with the string coercion of the inherited
value, not left verbatim; and malformed braces whose interior contains a
non-word character (such as a space) are treated as literal text, not as
a placeholder. -/
theorem c8_format_placeholders :
    (∀ (c : Collection) (pre suf w : List Char),
        (∀ ch ∈ pre, ch ≠ lbrace) → w ≠ [] → w.all isWordChar = true →
        toLowerStr w ∈ recognizedKeys →
        c.format (pre ++ lbrace :: (w ++ rbrace :: suf))
          = c.format (pre ++ lbrace :: (toLowerStr w ++ rbrace :: suf)))
    ∧ (∀ (c : Collection) (pre suf w : List Char),
        (∀ ch ∈ pre, ch ≠ lbrace) → w ≠ [] → w.all isWordChar = true →
        toLowerStr w ∉ recognizedKeys →
        toLowerStr w ≠ str "constructor" → toLowerStr w ≠ str "__proto__" →
        (∀ ch ∈ suf, ch ≠ lbrace) →
        c.format (pre ++ lbrace :: (w ++ rbrace :: suf))
          = pre ++ lbrace :: (w ++ rbrace :: suf))
    ∧ (∀ (c : Collection) (pre suf w v : List Char),
        (∀ ch ∈ pre, ch ≠ lbrace) → w ≠ [] → w.all isWordChar = true →
        toLowerStr w ∉ recognizedKeys →
        protoLookup (toLowerStr w) = some v →
        (∀ ch ∈ suf, ch ≠ lbrace) →
        c.format (pre ++ lbrace :: (w ++ rbrace :: suf))
          = pre ++ (v ++ suf))
    ∧ (∀ (c : Collection) (pre suf m : List Char),
        (∀ ch ∈ pre, ch ≠ lbrace) → (∃ x ∈ m, isWordChar x = false) →
        (∀ ch ∈ m, ch ≠ lbrace) → (∀ ch ∈ m, ch ≠ rbrace) →
        (∀ ch ∈ suf, ch ≠ lbrace) →
        c.format (pre ++ lbrace :: (m ++ rbrace :: suf))
          = pre ++ lbrace :: (m ++ rbrace :: suf)) := by
  refine ⟨?_, ?_, ?_, ?_⟩
  · intro c pre suf w hpre hw1 hw2 hkey
    unfold Collection.format
    have hpl : toLowerStr (pre ++ lbrace :: (w ++ rbrace :: suf))
        = toLowerStr (pre ++ lbrace :: (toLowerStr w ++ rbrace :: suf)) := by
      rw [toLowerStr_pattern, toLowerStr_pattern, toLowerStr_idem]
    rw [hpl]
    set lk := formatLookup c
      (toLowerStr (pre ++ lbrace :: (toLowerStr w ++ rbrace :: suf))) with hlk
    rw [replaceScan_literal hpre, replaceScan_literal hpre]
    rw [replaceScan_ph hw1 hw2, replaceScan_ph (toLowerStr_ne_nil hw1) (toLowerStr_word hw2)]
    have hval : lk (toLowerStr w) = lk w := formatLookup_lower c _ w
    have hsome : (lk (toLowerStr w)).isSome = true := by
      apply formatLookup_present hkey
      rw [toLowerStr_pattern, toLowerStr_idem]
      have hshape : toLowerStr pre ++ lbrace :: (toLowerStr w ++ rbrace :: toLowerStr suf)
          = toLowerStr pre
            ++ ((lbrace :: (toLowerStr w ++ [rbrace])) ++ toLowerStr suf) := by
        simp
      rw [hshape]
      exact containsSub_of_middle _ _ _
    obtain ⟨v, hv⟩ := Option.isSome_iff_exists.mp hsome
    rw [hval] at hv
    rw [hval, hv]
    rfl
  · intro c pre suf w hpre hw1 hw2 hkey hnc hnp hsuf
    unfold Collection.format
    set lk := formatLookup c
      (toLowerStr (pre ++ lbrace :: (w ++ rbrace :: suf))) with hlk
    rw [replaceScan_literal hpre, replaceScan_ph hw1 hw2]
    have hnone : lk w = none := by
      rw [show lk w = protoLookup (toLowerStr w) from formatLookup_absent hkey]
      unfold protoLookup
      rw [if_neg hnc, if_neg hnp]
    rw [hnone, replaceScan_id hsuf]
    simp
  · intro c pre suf w v hpre hw1 hw2 hkey hproto hsuf
    unfold Collection.format
    set lk := formatLookup c
      (toLowerStr (pre ++ lbrace :: (w ++ rbrace :: suf))) with hlk
    rw [replaceScan_literal hpre, replaceScan_ph hw1 hw2]
    have hv : lk w = some v := by
      rw [show lk w = protoLookup (toLowerStr w) from formatLookup_absent hkey]
      exact hproto
    rw [hv, replaceScan_id hsuf]
    rfl
  · intro c pre suf m hpre hbad hlb hrb hsuf
    unfold Collection.format
    rw [replaceScan_literal hpre, replaceScan_malformed hbad hlb hrb]
    rw [replaceScan_id hsuf]

/-- Witness for C8: concrete instances of the four conjuncts, including
the prototype-chain substitution of a "__proto__" placeholder. -/
theorem c8_witness :
    ((⟨str "h", str "t", 0, ({1} : Finset Int)⟩ : Collection).format
        (str "x" ++ lbrace :: (str "HEAD" ++ rbrace :: str "y"))
      = (⟨str "h", str "t", 0, ({1} : Finset Int)⟩ : Collection).format
        (str "x" ++ lbrace :: (str "head" ++ rbrace :: str "y")))
    ∧ ((⟨str "h", str "t", 0, ({1} : Finset Int)⟩ : Collection).format
        (str "x" ++ lbrace :: (str "foo" ++ rbrace :: str "y"))
      = str "x" ++ lbrace :: (str "foo" ++ rbrace :: str "y"))
    ∧ ((⟨str "h", str "t", 0, ({1} : Finset Int)⟩ : Collection).format
        (str "x" ++ lbrace :: (str "__proto__" ++ rbrace :: str "y"))
      = str "x" ++ (str "[object Object]" ++ str "y"))
    ∧ ((⟨str "h", str "t", 0, ({1} : Finset Int)⟩ : Collection).format
        (str "x" ++ lbrace :: (str "he ad" ++ rbrace :: str "y"))
      = str "x" ++ lbrace :: (str "he ad" ++ rbrace :: str "y")) := by
  refine ⟨?_, ?_, ?_, ?_⟩
  · have h := c8_format_placeholders.1 ⟨str "h", str "t", 0, ({1} : Finset Int)⟩
      (str "x") (str "y") (str "HEAD") (by decide) (by decide) (by decide) (by decide)
    simpa using h
  · exact c8_format_placeholders.2.1 ⟨str "h", str "t", 0, ({1} : Finset Int)⟩
      (str "x") (str "y") (str "foo") (by decide) (by decide) (by decide)
      (by decide) (by decide) (by decide) (by decide)
  · exact c8_format_placeholders.2.2.1 ⟨str "h", str "t", 0, ({1} : Finset Int)⟩
      (str "x") (str "y") (str "__proto__") (str "[object Object]")
      (by decide) (by decide) (by decide) (by decide) (by decide) (by decide)
  · exact c8_format_placeholders.2.2.2 ⟨str "h", str "t", 0, ({1} : Finset Int)⟩
      (str "x") (str "y") (str "he ad") (by decide)
      ⟨' ', by decide, by decide⟩ (by decide) (by decide) (by decide)

/-! ### Claims C6 and C10: assemble -/

/-- Walk of String.prototype.matchAll with the default digits pattern
(?<index>(?<padding>0*) digits +) compiled with the global flag
(src/seqo.js lines 825-833): successive non-overlapping matches are
exactly the maximal runs of digits; for each such run the triple is the
text before the run, the run, and the text after the run, matching the
head/tail split of src/seqo.js lines 839-843 (the full match equals the
captured index, so numberStart is zero). -/
def digitRunsAuxF : Nat → List Char → List Char →
    List (List Char × List Char × List Char)
  | 0, _, _ => []
  | fuel + 1, pre, rest =>
    match rest with
    | [] => []
    | ch :: t =>
      if ch.isDigit then
        (pre, ch :: t.takeWhile Char.isDigit, t.drop (t.takeWhile Char.isDigit).length)
          :: digitRunsAuxF fuel (pre ++ ch :: t.takeWhile Char.isDigit)
              (t.drop (t.takeWhile Char.isDigit).length)
      else digitRunsAuxF fuel (pre ++ [ch]) t

def digitRuns (s : List Char) : List (List Char × List Char × List Char) :=
  digitRunsAuxF (s.length + 1) [] s

/-- The padding width recorded for one matched run (src/seqo.js line
848): the run's length when the padding capture is nonempty, else 0.
The padding capture of the digits pattern is the leading zero run capped
one short of the whole (the lazy backtracking leaves at least one digit
for the mandatory digit quantifier). -/
def padLenOf (run : List Char) : Nat :=
  if min (zeroRunLen run) (run.length - 1) ≠ 0 then run.length else 0

/-- The string key of the collection map (src/seqo.js line 850):
head, tail and padding joined with vertical bars.  With the default
caseSensitive = true the normalised head and tail are the originals. -/
def bucketKey (hd tl : List Char) (pad : Nat) : List Char :=
  hd ++ '|' :: (tl ++ '|' :: natDigits pad)

/-- Insertion into the collection map (src/seqo.js lines 852-861): a new
bucket is appended at the end (Map preserves insertion order); an
existing bucket receives the parsed index. -/
def bucketAdd : List (List Char × Collection) → List Char → List Char →
    List Char → Nat → Int → List (List Char × Collection)
  | [], key, hd, tl, pad, idx => [(key, ⟨hd, tl, pad, {idx}⟩)]
  | (k, col) :: rest, key, hd, tl, pad, idx =>
    if k = key then (k, {col with _indexes := insert idx col._indexes}) :: rest
    else (k, col) :: bucketAdd rest key hd tl pad idx

/-- Set.prototype.add on a JavaScript Set modelled as an insertion-order
list without duplicates. -/
def listInsert (l : List (List Char)) (a : List Char) : List (List Char) :=
  if a ∈ l then l else l ++ [a]

/-- The scanning pass of assemble (src/seqo.js lines 828-869) with the
default pattern list: every string is scanned for digit runs; each match
feeds its bucket, and a string with no match at all goes to the
remainder set. -/
def scanAll (strings : List (List Char)) :
    List (List Char × Collection) × List (List Char) :=
  strings.foldl
    (fun acc item =>
      let runs := digitRuns item
      if runs = [] then (acc.1, listInsert acc.2 item)
      else
        (runs.foldl
          (fun m trip =>
            bucketAdd m (bucketKey trip.1 trip.2.2 (padLenOf trip.2.1))
              trip.1 trip.2.2 (padLenOf trip.2.1) ((digitsToNat trip.2.1 : Int)))
          acc.1, acc.2))
    ([], [])

/-- The inner candidate loop of the padding-boundary merge (src/seqo.js
lines 894-913) for one padded target: every zero-padding candidate with
the same head and tail contributes the indexes whose decimal digit
length equals the target's padding.  collection.add is called index by
index; the net effect on the target's set is this union (the indexes are
non-negative, so add never throws).  Candidates are never mutated. -/
def mergeOne (col : Collection) (cands : List Collection) : Collection :=
  cands.foldl
    (fun acc cand =>
      if cand.head = acc.head ∧ cand.tail = acc.tail then
        {acc with _indexes := acc._indexes
          ∪ cand._indexes.filter (fun i => digitCount i = acc.padding)}
      else acc)
    col

/-- Whether a zero-padding bucket ends up in the fullyMerged set
(src/seqo.js lines 908-911): some padded target with the same head and
tail absorbs every one of its indexes. -/
def isFullyMerged (cols : List Collection) (cand : Collection) : Bool :=
  cols.any (fun col =>
    (decide (col.padding ≠ 0)) && (cand.head = col.head) && (cand.tail = col.tail)
      && ((cand._indexes.filter (fun i => digitCount i = col.padding)).card
            = cand._indexes.card))

/-- The padding-boundary merge stage of assemble (src/seqo.js lines
873-917): the merge candidates are the zero-padding collections in
creation order; every padded collection absorbs the width-matching
indexes of every candidate sharing its head and tail (mutation of
distinct objects, modelled per element: candidates are read-only during
the loops and targets only grow); finally the fully merged candidates
are dropped (src/seqo.js line 917). -/
def mergeStage (cols : List Collection) : List Collection :=
  let cands := cols.filter (fun d => d.padding = 0)
  let updated := cols.map (fun col => if col.padding = 0 then col else mergeOne col cands)
  updated.filter (fun col => !((decide (col.padding = 0)) && isFullyMerged cols col))

/-- The minimum-size filter (src/seqo.js lines 920-927): collections
with fewer than minItems indexes are dropped and their formatted members
are added to the remainder set one by one. -/
def sizeFilter (cols : List Collection) (minItems : Nat)
    (rem : List (List Char)) : List Collection × List (List Char) :=
  cols.foldl
    (fun acc col =>
      if minItems ≤ col._indexes.card then (acc.1 ++ [col], acc.2)
      else (acc.1, col.members.foldl listInsert acc.2))
    ([], rem)

/-- The ambiguous-padding inference (src/seqo.js lines 930-941): when
enabled, an unpadded nonempty collection whose smallest and largest
index render with the same digit count adopts that count as padding. -/
def inferOne (col : Collection) : Collection :=
  let l := col.indexes
  if col.padding = 0 ∧ l ≠ [] then
    (if (jsString (l.head?.getD 0)).length = (jsString (l.getLast?.getD 0)).length
      then {col with padding := (jsString (l.head?.getD 0)).length}
      else col)
  else col

/-- assemble (src/seqo.js lines 805-947) specialised to the default
pattern list (patterns = null compiles to the single digits pattern) and
caseSensitive = true.  The final numeric-comparator sort of the
remainder uses (a, b) => a - b, which on strings yields NaN; the
ECMAScript SortCompare treats NaN as zero and with an inconsistent
comparator the resulting order is implementation defined, but it is
always a permutation of the array, so the permutation is modelled as the
identity (every property proved below is invariant under permutations
of the remainder). -/
def assembleDefault (strings : List (List Char)) (minItems : Nat)
    (assumePadded : Bool) : List Collection × List (List Char) :=
  let scanned := scanAll strings
  let allCols := scanned.1.map Prod.snd
  let merged := mergeStage allCols
  let filtered := sizeFilter merged minItems scanned.2
  let final := if assumePadded then filtered.1.map inferOne else filtered.1
  (final, filtered.2)

theorem mergeOne_fields (col : Collection) (cands : List Collection) :
    (mergeOne col cands).head = col.head ∧ (mergeOne col cands).tail = col.tail
      ∧ (mergeOne col cands).padding = col.padding := by
  unfold mergeOne
  induction cands generalizing col with
  | nil => exact ⟨rfl, rfl, rfl⟩
  | cons cand rest ih =>
    simp only [List.foldl_cons]
    by_cases h : cand.head = col.head ∧ cand.tail = col.tail
    · rw [if_pos h]
      exact ih _
    · rw [if_neg h]
      exact ih _

theorem mergeOne_mono {i : Int} :
    ∀ (cands : List Collection) (col : Collection), i ∈ col._indexes →
      i ∈ (mergeOne col cands)._indexes := by
  intro cands
  unfold mergeOne
  induction cands with
  | nil => intro col h; exact h
  | cons cand rest ih =>
    intro col h
    simp only [List.foldl_cons]
    by_cases hc : cand.head = col.head ∧ cand.tail = col.tail
    · rw [if_pos hc]
      exact ih _ (Finset.mem_union_left _ h)
    · rw [if_neg hc]
      exact ih _ h

theorem mergeOne_absorbs {i : Int} {cand : Collection} :
    ∀ (cands : List Collection) (col : Collection), cand ∈ cands →
      cand.head = col.head → cand.tail = col.tail →
      i ∈ cand._indexes → digitCount i = col.padding →
      i ∈ (mergeOne col cands)._indexes := by
  intro cands
  induction cands with
  | nil => intro col h; cases h
  | cons x rest ih =>
    intro col hmem hh htl hi hd
    rcases List.mem_cons.mp hmem with rfl | hmem2
    · unfold mergeOne
      simp only [List.foldl_cons]
      rw [if_pos ⟨hh, htl⟩]
      have : i ∈ (col._indexes
          ∪ cand._indexes.filter (fun j => digitCount j = col.padding)) := by
        apply Finset.mem_union_right
        rw [Finset.mem_filter]
        exact ⟨hi, hd⟩
      exact mergeOne_mono rest _ this
    · unfold mergeOne
      simp only [List.foldl_cons]
      by_cases hc : x.head = col.head ∧ x.tail = col.tail
      · rw [if_pos hc]
        exact ih _ hmem2 hh htl hi hd
      · rw [if_neg hc]
        exact ih _ hmem2 hh htl hi hd

/-- C6 (amended): in the padding-boundary merge, each index of an
unpadded bucket whose decimal digit length equals a same-head-same-tail
padded bucket's width is copied into the padded bucket, but it is not
removed from the unpadded bucket: when the unpadded bucket survives (not
all of its indexes were absorbed by some padded bucket) it keeps its
entire index set, so such an index then belongs to both collections; if
all of its indexes are absorbed the unpadded bucket is dropped from the
result. -/
theorem c6_merge_copy_semantics :
    ∀ (cols : List Collection) (col cand : Collection),
      col ∈ cols → cand ∈ cols → col.padding ≠ 0 → cand.padding = 0 →
      cand.head = col.head → cand.tail = col.tail →
      (∀ i ∈ cand._indexes, digitCount i = col.padding →
        i ∈ (mergeOne col (cols.filter (fun d => d.padding = 0)))._indexes)
      ∧ mergeOne col (cols.filter (fun d => d.padding = 0)) ∈ mergeStage cols
      ∧ (isFullyMerged cols cand = false → cand ∈ mergeStage cols)
      ∧ (isFullyMerged cols cand = true → ∀ e ∈ mergeStage cols, e ≠ cand) := by
  intro cols col cand hcol hcand hpc hpz hh htl
  have hcands : cand ∈ cols.filter (fun d => d.padding = 0) :=
    List.mem_filter.mpr ⟨hcand, by simp [hpz]⟩
  refine ⟨?_, ?_, ?_, ?_⟩
  · intro i hi hd
    exact mergeOne_absorbs _ col hcands hh htl hi hd
  · unfold mergeStage
    apply List.mem_filter.mpr
    constructor
    · apply List.mem_map.mpr
      exact ⟨col, hcol, by rw [if_neg hpc]⟩
    · have hpad : (mergeOne col (cols.filter (fun d => d.padding = 0))).padding
          = col.padding := (mergeOne_fields _ _).2.2
      simp only [Bool.not_eq_true', Bool.and_eq_false_iff]
      left
      simp [hpad, hpc]
  · intro hnot
    unfold mergeStage
    apply List.mem_filter.mpr
    constructor
    · apply List.mem_map.mpr
      exact ⟨cand, hcand, by rw [if_pos hpz]⟩
    · simp only [Bool.not_eq_true', Bool.and_eq_false_iff]
      right
      exact hnot
  · intro hfull e he hecand
    subst hecand
    unfold mergeStage at he
    have hpred := (List.mem_filter.mp he).2
    simp only [Bool.not_eq_true', Bool.and_eq_false_iff] at hpred
    rcases hpred with h1 | h2
    · rw [decide_eq_false_iff_not] at h1
      exact h1 hpz
    · rw [hfull] at h2
      cases h2

/-- C6 counterexample: the claim says a migrated index no longer belongs
to the unpadded bucket, but when the unpadded bucket is only partially
absorbed the source never deletes the migrated indexes from it.  For the
input strings file007.txt, file700.txt, file70.txt the index 700 is
migrated into the padded width-3 bucket yet also remains in the
surviving unpadded bucket. -/
theorem c6_counterexample :
    (∃ b ∈ (assembleDefault
        [str "file007.txt", str "file700.txt", str "file70.txt"] 2 false).1,
      b.padding = 3 ∧ (700 : Int) ∈ b._indexes)
    ∧ (∃ b ∈ (assembleDefault
        [str "file007.txt", str "file700.txt", str "file70.txt"] 2 false).1,
      b.padding = 0 ∧ (700 : Int) ∈ b._indexes) := by decide

/-- Witness for C6 on a concrete bucket list. -/
theorem c6_witness :
    let colP : Collection := ⟨str "f", str ".x", 3, ({7} : Finset Int)⟩
    let colU : Collection := ⟨str "f", str ".x", 0, ({700, 70} : Finset Int)⟩
    (∀ i ∈ colU._indexes, digitCount i = colP.padding →
      i ∈ (mergeOne colP ([colP, colU].filter (fun d => d.padding = 0)))._indexes)
    ∧ mergeOne colP ([colP, colU].filter (fun d => d.padding = 0))
        ∈ mergeStage [colP, colU]
    ∧ (isFullyMerged [colP, colU] colU = false → colU ∈ mergeStage [colP, colU])
    ∧ (isFullyMerged [colP, colU] colU = true →
        ∀ e ∈ mergeStage [colP, colU], e ≠ colU) :=
  c6_merge_copy_semantics [⟨str "f", str ".x", 3, ({7} : Finset Int)⟩,
      ⟨str "f", str ".x", 0, ({700, 70} : Finset Int)⟩]
    ⟨str "f", str ".x", 3, ({7} : Finset Int)⟩
    ⟨str "f", str ".x", 0, ({700, 70} : Finset Int)⟩
    (by decide) (by decide) (by decide) (by decide) (by decide) (by decide)

theorem listInsert_nodup {l : List (List Char)} (h : l.Nodup) (a : List Char) :
    (listInsert l a).Nodup := by
  unfold listInsert
  by_cases hm : a ∈ l
  · rw [if_pos hm]; exact h
  · rw [if_neg hm]
    rw [List.nodup_append]
    refine ⟨h, List.nodup_singleton a, ?_⟩
    intro x hx
    simp only [List.mem_singleton]
    intro hax
    subst hax
    exact hm hx

theorem foldl_listInsert_nodup :
    ∀ (xs : List (List Char)) (acc : List (List Char)), acc.Nodup →
      (xs.foldl listInsert acc).Nodup := by
  intro xs
  induction xs with
  | nil => intro acc h; exact h
  | cons x t ih => intro acc h; exact ih _ (listInsert_nodup h x)

theorem scanAll_rem_nodup (strings : List (List Char)) :
    (scanAll strings).2.Nodup := by
  unfold scanAll
  suffices h : ∀ (st : List (List Char × Collection) × List (List Char)),
      st.2.Nodup →
      (strings.foldl
        (fun acc item =>
          let runs := digitRuns item
          if runs = [] then (acc.1, listInsert acc.2 item)
          else
            (runs.foldl
              (fun m trip =>
                bucketAdd m (bucketKey trip.1 trip.2.2 (padLenOf trip.2.1))
                  trip.1 trip.2.2 (padLenOf trip.2.1) ((digitsToNat trip.2.1 : Int)))
              acc.1, acc.2)) st).2.Nodup by
    exact h ([], []) List.nodup_nil
  induction strings with
  | nil => intro st h; exact h
  | cons x t ih =>
    intro st h
    simp only [List.foldl_cons]
    apply ih
    by_cases hr : digitRuns x = []
    · rw [if_pos hr]
      exact listInsert_nodup h x
    · rw [if_neg hr]
      exact h

theorem sizeFilter_rem_nodup (cols : List Collection) (minItems : Nat)
    {rem : List (List Char)} (h : rem.Nodup) :
    (sizeFilter cols minItems rem).2.Nodup := by
  unfold sizeFilter
  suffices hgen : ∀ (st : List Collection × List (List Char)), st.2.Nodup →
      (cols.foldl
        (fun acc col =>
          if minItems ≤ col._indexes.card then (acc.1 ++ [col], acc.2)
          else (acc.1, col.members.foldl listInsert acc.2)) st).2.Nodup by
    exact hgen ([], rem) h
  induction cols with
  | nil => intro st hst; exact hst
  | cons col t ih =>
    intro st hst
    simp only [List.foldl_cons]
    apply ih
    by_cases hc : minItems ≤ col._indexes.card
    · rw [if_pos hc]; exact hst
    · rw [if_neg hc]
      exact foldl_listInsert_nodup _ _ hst

/-- C10: the remainder returned by assemble contains each string at most
once: the remainder is a Set, so unmatched input strings and the
formatted members of dropped collections are deduplicated, even when the
input repeats an unmatched string.  (The final numeric-comparator sort
only permutes the remainder, so freedom from duplicates is unaffected.) -/
theorem c10_remainder_nodup :
    ∀ (strings : List (List Char)) (minItems : Nat) (assumePadded : Bool),
      ((assembleDefault strings minItems assumePadded).2).Nodup := by
  intro strings minItems assumePadded
  unfold assembleDefault
  exact sizeFilter_rem_nodup _ _ (scanAll_rem_nodup strings)

/-! ### Claims C3 and C7: parseCollection -/

/-- ECMAScript WhiteSpace and LineTerminator characters recognised by
String.prototype.trim and by parseInt (the common ones; the strings
reaching trim here only ever carry the plain space). -/
def isJsSpace (c : Char) : Bool :=
  c = ' ' || c = '\t' || c = '\n' || c = '\r'
    || c = Char.ofNat 0x0b || c = Char.ofNat 0x0c || c = Char.ofNat 0xa0
    || c = Char.ofNat 0x2028 || c = Char.ofNat 0x2029 || c = Char.ofNat 0xfeff

/-- String.prototype.trim. -/
def jsTrim (l : List Char) : List Char :=
  (((l.dropWhile isJsSpace).reverse).dropWhile isJsSpace).reverse

/-- String.prototype.split with a single-character separator. -/
def splitCharF (sep : Char) : List Char → List Char → List (List Char)
  | [], cur => [cur.reverse]
  | ch :: t, cur =>
    if ch = sep then cur.reverse :: splitCharF sep t []
    else splitCharF sep t (ch :: cur)

def splitChar (sep : Char) (l : List Char) : List (List Char) :=
  splitCharF sep l []

/-- The helper splitRanges (src/seqo.js lines 1066-1071): split on
commas, trim every part, and drop the empty parts. -/
def splitRanges (l : List Char) : List (List Char) :=
  ((splitChar ',' l).map jsTrim).filter (fun p => p ≠ [])

/-- parseInt(p, 10) on the arguments reachable from the range grammar
(digits and whitespace; the sides of a split on hyphens carry no sign):
skip leading whitespace, then read the maximal leading digit run; an
empty run is NaN. -/
def jsParseIntDigits (l : List Char) : Option Nat :=
  let t := l.dropWhile isJsSpace
  let run := t.takeWhile Char.isDigit
  if run = [] then none else some (digitsToNat run)

/-- The helper parseRange (src/seqo.js lines 1074-1087): trim, split on
every hyphen, require exactly two nonempty parts, and parse both with
parseInt rejecting NaN. -/
def parseRange (rangeStr : List Char) : Except String (Int × Int) :=
  let parts := splitChar '-' (jsTrim rangeStr)
  if parts.length ≠ 2 ∨ parts.any (fun p => decide (p = [])) then
    .error "Invalid range format"
  else
    match jsParseIntDigits (parts.head?.getD []),
        jsParseIntDigits ((parts.drop 1).head?.getD []) with
    | some a, some b => .ok ((a : Int), (b : Int))
    | _, _ => .error "Invalid number in range"

/-- The helper parsePart (src/seqo.js lines 1090-1101): a part with a
hyphen is parsed as an inclusive range materialised by
range(start, end + 1); otherwise parseInt with NaN rejection. -/
def parsePart (part : List Char) : Except String (List Int) :=
  let p := jsTrim part
  if p.contains '-' then
    match parseRange p with
    | .error e => .error e
    | .ok (a, b) => range2 a (b + 1)
  else
    match jsParseIntDigits p with
    | none => .error "Invalid number"
    | some n => .ok [(n : Int)]

/-- The character class of the rendered ranges group, [digits space
comma hyphen]. -/
def isClassChar (c : Char) : Bool :=
  c.isDigit || c = ' ' || c = ',' || c = '-'

/-- One attempt of the rendered default-pattern regex at a fixed start
position.  parseCollection renders its default template
"(head)(padding)(tail) [(ranges)]" into the regex source
(?<head> dot *) % (?<padding> digits *) d (?<tail> dot *) space
literal-bracket (?<ranges> class +)? literal-bracket, with no anchors.
The greedy dot-star for head tries the longest prefix first and cannot
cross a line terminator; the greedy digits-run before the literal d is
forced to the maximal run (its characters are digits, never d); the
greedy class run before the literal closing bracket is forced likewise
(the bracket is not in the class), and when that run is empty the
optional group is unset.  Returns (head, padding, tail, ranges)
captures. -/
def matchHere (u : List Char) :
    Option (List Char × List Char × List Char × Option (List Char)) :=
  (descRange (u.length + 1)).findSome? (fun k =>
    if (u.take k).all (fun c => !(isLineTerm c)) then
      (match u.drop k with
       | c0 :: b1 =>
         if c0 = '%' then
           (match b1.drop (b1.takeWhile Char.isDigit).length with
            | c1 :: v =>
              if c1 = 'd' then
                (descRange (v.length + 1)).findSome? (fun j =>
                  if (v.take j).all (fun c => !(isLineTerm c)) then
                    (match v.drop j with
                     | c2 :: c3 :: w1 =>
                       if c2 = ' ' ∧ c3 = '[' then
                         (match w1.drop (w1.takeWhile isClassChar).length with
                          | c4 :: _ =>
                            if c4 = ']' then
                              some (u.take k, b1.takeWhile Char.isDigit, v.take j,
                                if w1.takeWhile isClassChar = [] then none
                                else some (w1.takeWhile isClassChar))
                            else none
                          | _ => none)
                       else none
                     | _ => none)
                  else none)
              else none
            | _ => none)
         else none
       | _ => none)
    else none)

/-- String.prototype.match with the rendered default-pattern regex:
leftmost match wins, so the start positions are tried in order (at the
empty suffix the regex cannot match, since it needs a percent sign, so
returning that attempt directly is faithful). -/
def regexFindDefault : List Char →
    Option (List Char × List Char × List Char × Option (List Char))
  | [] => matchHere []
  | a :: rest =>
    match matchHere (a :: rest) with
    | some caps => some caps
    | none => regexFindDefault rest

/-- The body of the per-part loop of parseCollection: parse the part and
add its integers, propagating the first failure (the source wraps the
message; the message text is immaterial here). -/
def addPart (c : Collection) (part : List Char) : Except String Collection :=
  match parsePart part with
  | .error e => .error e
  | .ok idxs =>
    match c.add (idxs.map Item.int) with
    | (c2, none) => .ok c2
    | (_, some e) => .error e

/-- parseCollection (src/seqo.js lines 990-1058) specialised to the
default pattern (the rendered regex has a head, padding, tail and
optional ranges group and no range or holes group): match the regex,
build the collection from the head and tail captures and the parsed
padding (an absent padding capture gives zero), then split the ranges
capture and add the integers of every part. -/
def parseCollectionDefault (s : List Char) : Except String Collection :=
  match regexFindDefault s with
  | none => .error "String does not match pattern"
  | some (headCap, padDigits, tailCap, rangesCap) =>
    let padding := if padDigits = [] then 0 else digitsToNat padDigits
    let coll : Collection := ⟨headCap, tailCap, padding, ∅⟩
    match rangesCap with
    | none => .ok coll
    | some rangesStr =>
      (splitRanges rangesStr).foldlM addPart coll

/-! Helper lemmas for trim and split -/

lemma dropWhile_eq_self_of_head {p : Char → Bool} {l : List Char}
    (h : ∀ c, l.head? = some c → p c = false) : l.dropWhile p = l := by
  cases l with
  | nil => rfl
  | cons a t => simp [List.dropWhile_cons, h a rfl]

lemma head_dropWhile_false {p : Char → Bool} (l : List Char) :
    ∀ c, (l.dropWhile p).head? = some c → p c = false := by
  induction l with
  | nil => intro c hc; cases hc
  | cons a t ih =>
    intro c hc
    rw [List.dropWhile_cons] at hc
    by_cases hp : p a
    · rw [if_pos hp] at hc; exact ih c hc
    · rw [if_neg hp] at hc
      simp only [List.head?_cons, Option.some.injEq] at hc
      subst hc
      simp only [Bool.not_eq_true] at hp
      exact hp

/-- Strings with no whitespace at either edge. -/
def noEdgeSpace (t : List Char) : Prop :=
  (∀ c, t.head? = some c → isJsSpace c = false) ∧
  (∀ c, t.getLast? = some c → isJsSpace c = false)

lemma jsTrim_eq_self {t : List Char} (h : noEdgeSpace t) : jsTrim t = t := by
  have h1 : t.dropWhile isJsSpace = t := dropWhile_eq_self_of_head h.1
  have h2 : t.reverse.dropWhile isJsSpace = t.reverse := by
    apply dropWhile_eq_self_of_head
    intro c hc
    rw [List.head?_reverse] at hc
    exact h.2 c hc
  unfold jsTrim
  rw [h1, h2, List.reverse_reverse]

lemma jsTrim_noEdgeSpace (q : List Char) : noEdgeSpace (jsTrim q) := by
  constructor
  · intro c hc
    unfold jsTrim at hc
    rw [List.head?_reverse] at hc
    obtain ⟨pre, hpre⟩ :
        ((q.dropWhile isJsSpace).reverse.dropWhile isJsSpace) <:+
          (q.dropWhile isJsSpace).reverse := List.dropWhile_suffix _
    cases hB : (q.dropWhile isJsSpace).reverse.dropWhile isJsSpace with
    | nil => rw [hB] at hc; cases hc
    | cons b bt =>
      rw [hB] at hc hpre
      have hlast : (q.dropWhile isJsSpace).reverse.getLast? = some c := by
        rw [← hpre]
        exact (List.getLast?_append_of_ne_nil pre (List.cons_ne_nil b bt)).trans hc
      rw [List.getLast?_reverse] at hlast
      exact head_dropWhile_false q c hlast
  · intro c hc
    unfold jsTrim at hc
    rw [List.getLast?_reverse] at hc
    exact head_dropWhile_false _ c hc

lemma splitCharF_chars (sep : Char) :
    ∀ (l cur x : List Char), x ∈ splitCharF sep l cur →
      ∀ ch ∈ x, ch ∈ cur ∨ ch ∈ l := by
  intro l
  induction l with
  | nil =>
    intro cur x hx ch hch
    simp only [splitCharF, List.mem_singleton] at hx
    subst hx
    exact Or.inl (List.mem_reverse.mp hch)
  | cons a t ih =>
    intro cur x hx ch hch
    simp only [splitCharF] at hx
    by_cases ha : a = sep
    · rw [if_pos ha] at hx
      rcases List.mem_cons.mp hx with hx | hx
      · subst hx
        exact Or.inl (List.mem_reverse.mp hch)
      · rcases ih [] x hx ch hch with h | h
        · cases h
        · exact Or.inr (List.mem_cons_of_mem _ h)
    · rw [if_neg ha] at hx
      rcases ih (a :: cur) x hx ch hch with h | h
      · rcases List.mem_cons.mp h with h | h
        · subst h; exact Or.inr (List.mem_cons_self _ _)
        · exact Or.inl h
      · exact Or.inr (List.mem_cons_of_mem _ h)

lemma splitCharF_no_sep (sep : Char) :
    ∀ (l cur x : List Char), sep ∉ cur → x ∈ splitCharF sep l cur → sep ∉ x := by
  intro l
  induction l with
  | nil =>
    intro cur x hcur hx
    simp only [splitCharF, List.mem_singleton] at hx
    subst hx
    intro hmem
    exact hcur (List.mem_reverse.mp hmem)
  | cons a t ih =>
    intro cur x hcur hx
    simp only [splitCharF] at hx
    by_cases ha : a = sep
    · rw [if_pos ha] at hx
      rcases List.mem_cons.mp hx with hx | hx
      · subst hx
        intro hmem
        exact hcur (List.mem_reverse.mp hmem)
      · exact ih [] x (List.not_mem_nil _) hx
    · rw [if_neg ha] at hx
      refine ih (a :: cur) x ?_ hx
      intro hmem
      rcases List.mem_cons.mp hmem with h | h
      · exact ha h.symm
      · exact hcur h

lemma splitChar_chars {sep : Char} {l x : List Char} (hx : x ∈ splitChar sep l) :
    ∀ ch ∈ x, ch ∈ l := by
  intro ch hch
  rcases splitCharF_chars sep l [] x hx ch hch with h | h
  · cases h
  · exact h

lemma splitChar_no_sep {sep : Char} {l x : List Char} (hx : x ∈ splitChar sep l) :
    sep ∉ x :=
  splitCharF_no_sep sep l [] x (List.not_mem_nil _) hx

lemma jsParseIntDigits_eq_none_iff (s : List Char) :
    jsParseIntDigits s = none ↔
      (s.dropWhile isJsSpace).takeWhile Char.isDigit = [] := by
  unfold jsParseIntDigits
  dsimp only
  by_cases h : (s.dropWhile isJsSpace).takeWhile Char.isDigit = []
  · rw [if_pos h]; simp [h]
  · rw [if_neg h]; simp [h]

lemma range2_ok (x y : Int) : ∃ l, range2 x y = .ok l := by
  unfold range2 range3
  dsimp only
  by_cases hxy : x ≤ y
  · rw [if_pos hxy]
    rw [if_neg (by omega)]
    rw [if_neg (by omega)]
    exact ⟨_, rfl⟩
  · rw [if_neg hxy]
    rw [if_neg (by omega)]
    rw [if_neg (by omega)]
    exact ⟨_, rfl⟩

lemma parsePart_spec (p : List Char)
    (halpha : ∀ ch ∈ p, Char.isDigit ch = true ∨ ch = ' ' ∨ ch = '-')
    (htrim : jsTrim p = p) (hne : p ≠ []) :
    ((∃ e, parsePart p = .error e) ↔
      ('-' ∈ p ∧ ((splitChar '-' p).length ≠ 2 ∨
        ∃ side ∈ splitChar '-' p,
          (side.dropWhile isJsSpace).takeWhile Char.isDigit = []))) ∧
    ('-' ∉ p →
      parsePart p = .ok [(digitsToNat (p.takeWhile Char.isDigit) : Int)]) := by
  by_cases hhy : '-' ∈ p
  · -- hyphen branch: parseRange
    have hcont : p.contains '-' = true := List.elem_iff.mpr hhy
    unfold parsePart
    dsimp only
    rw [htrim, if_pos hcont]
    unfold parseRange
    dsimp only
    rw [htrim]
    by_cases hlen : (splitChar '-' p).length = 2
    · obtain ⟨a, b, hab⟩ := List.length_eq_two.mp hlen
      rw [hab]
      by_cases hemp : a = [] ∨ b = []
      · rw [if_pos (Or.inr (by rcases hemp with h | h <;> subst h <;> simp))]
        refine ⟨⟨fun _ => ⟨hhy, Or.inr ?_⟩, fun _ => ⟨_, rfl⟩⟩,
          fun hc => absurd hhy hc⟩
        rcases hemp with h | h
        · exact ⟨a, List.mem_cons_self _ _, by subst h; rfl⟩
        · exact ⟨b, List.mem_cons_of_mem _ (List.mem_cons_self _ _),
            by subst h; rfl⟩
      · rw [if_neg (by
          rintro (h | h)
          · exact h rfl
          · simp only [List.any_cons, List.any_nil, Bool.or_false,
              Bool.or_eq_true, decide_eq_true_eq] at h
            exact hemp h)]
        simp only [List.drop_succ_cons, List.drop_zero, List.head?_cons,
          Option.getD_some]
        cases hA : jsParseIntDigits a with
        | none =>
          refine ⟨⟨fun _ => ⟨hhy, Or.inr ⟨a, List.mem_cons_self _ _,
            (jsParseIntDigits_eq_none_iff a).mp hA⟩⟩, fun _ => ⟨_, rfl⟩⟩,
            fun hc => absurd hhy hc⟩
        | some na =>
          cases hB : jsParseIntDigits b with
          | none =>
            refine ⟨⟨fun _ => ⟨hhy, Or.inr ⟨b,
              List.mem_cons_of_mem _ (List.mem_cons_self _ _),
              (jsParseIntDigits_eq_none_iff b).mp hB⟩⟩, fun _ => ⟨_, rfl⟩⟩,
              fun hc => absurd hhy hc⟩
          | some nb =>
            dsimp only
            obtain ⟨l, hl⟩ := range2_ok (na : Int) ((nb : Int) + 1)
            rw [hl]
            refine ⟨⟨?_, ?_⟩, fun hc => absurd hhy hc⟩
            · rintro ⟨e, he⟩; cases he
            · rintro ⟨-, h2 | ⟨side, hside, hrun⟩⟩
              · exact absurd rfl h2
              · have hnone : jsParseIntDigits side = none :=
                  (jsParseIntDigits_eq_none_iff side).mpr hrun
                rcases List.mem_cons.mp hside with h | h
                · subst h; rw [hA] at hnone; cases hnone
                · rcases List.mem_cons.mp h with h | h
                  · subst h; rw [hB] at hnone; cases hnone
                  · cases h
    · rw [if_pos (Or.inl hlen)]
      exact ⟨⟨fun _ => ⟨hhy, Or.inl hlen⟩, fun _ => ⟨_, rfl⟩⟩,
        fun hc => absurd hhy hc⟩
  · -- hyphen-free branch: parseInt on a trimmed digit-headed string
    have hcont : ¬(p.contains '-' = true) := fun h => hhy (List.elem_iff.mp h)
    obtain ⟨c, t, rfl⟩ : ∃ c t, p = c :: t := by
      cases p with
      | nil => exact absurd rfl hne
      | cons c t => exact ⟨c, t, rfl⟩
    have hchead : isJsSpace c = false := by
      have := jsTrim_noEdgeSpace (c :: t)
      rw [htrim] at this
      exact this.1 c rfl
    have hcdig : Char.isDigit c = true := by
      rcases halpha c (List.mem_cons_self _ _) with h | h | h
      · exact h
      · subst h; exact absurd hchead (by decide)
      · subst h; exact absurd (List.mem_cons_self _ _) hhy
    have hdrop : (c :: t).dropWhile isJsSpace = c :: t := by
      apply dropWhile_eq_self_of_head
      intro x hx
      simp only [List.head?_cons, Option.some.injEq] at hx
      subst hx
      exact hchead
    have htake : (c :: t).takeWhile Char.isDigit
        = c :: t.takeWhile Char.isDigit := by
      rw [List.takeWhile_cons, if_pos hcdig]
    unfold parsePart
    dsimp only
    rw [htrim, if_neg hcont]
    unfold jsParseIntDigits
    dsimp only
    rw [hdrop, htake, if_neg (List.cons_ne_nil _ _)]
    dsimp only
    refine ⟨⟨?_, ?_⟩, fun _ => rfl⟩
    · rintro ⟨e, he⟩; cases he
    · rintro ⟨hmem, -⟩; exact absurd hmem hhy

lemma jsTrim_idem (q : List Char) : jsTrim (jsTrim q) = jsTrim q :=
  jsTrim_eq_self (jsTrim_noEdgeSpace q)

lemma mem_of_mem_jsTrim {ch : Char} {q : List Char} (h : ch ∈ jsTrim q) :
    ch ∈ q := by
  unfold jsTrim at h
  rw [List.mem_reverse] at h
  have h2 : ch ∈ (q.dropWhile isJsSpace).reverse :=
    (List.dropWhile_sublist _).subset h
  rw [List.mem_reverse] at h2
  exact (List.dropWhile_sublist _).subset h2

/-- A part in the shape the spec's grammar words call a bare integer
numeral: one or more digits. -/
def specBareNumeral (p : List Char) : Bool := !p.isEmpty && p.all Char.isDigit

/-- A part in the spec's N-M shape: exactly one hyphen, both sides bare
integer numerals. -/
def specNM (p : List Char) : Bool :=
  match splitChar '-' p with
  | [a, b] => specBareNumeral a && specBareNumeral b
  | _ => false

/-- C7: the range-part grammar is looser than the spec claims.  Amended
statement: for every part produced by splitting a ranges capture (whose
characters are restricted to the regex class of digits, spaces, commas
and hyphens), parsing the part fails exactly when it contains a hyphen
and splitting it on hyphens yields a number of sides other than two, or
some side with no digits at its start after leading whitespace; a
hyphen-free part is always accepted as the integer given by its leading
digit run, even when trailing junk such as a second spaced numeral
follows. -/
theorem c7_part_grammar_leniency (R part : List Char)
    (hR : ∀ ch ∈ R, isClassChar ch = true)
    (hmem : part ∈ splitRanges R) :
    ((∃ e, parsePart part = .error e) ↔
      ('-' ∈ part ∧ ((splitChar '-' part).length ≠ 2 ∨
        ∃ side ∈ splitChar '-' part,
          (side.dropWhile isJsSpace).takeWhile Char.isDigit = []))) ∧
    ('-' ∉ part →
      parsePart part = .ok [(digitsToNat (part.takeWhile Char.isDigit) : Int)]) := by
  unfold splitRanges at hmem
  rw [List.mem_filter] at hmem
  obtain ⟨hmap, hne⟩ := hmem
  have hne : part ≠ [] := of_decide_eq_true hne
  rw [List.mem_map] at hmap
  obtain ⟨q, hq, rfl⟩ := hmap
  refine parsePart_spec (jsTrim q) ?_ (jsTrim_idem q) hne
  intro ch hch
  have hqmem : ch ∈ q := mem_of_mem_jsTrim hch
  have hclass := hR ch (splitChar_chars hq ch hqmem)
  have hnc : ch ≠ ',' := fun h => splitChar_no_sep hq (h ▸ hqmem)
  unfold isClassChar at hclass
  simp only [Bool.or_eq_true, decide_eq_true_eq] at hclass
  rcases hclass with ((h | h) | h) | h
  · exact Or.inl h
  · exact Or.inr (Or.inl h)
  · exact absurd h hnc
  · exact Or.inr (Or.inr h)

/-- C7 counterexample: the part "1 2" is neither a bare numeral nor of
the N-M shape, yet parsePart silently accepts it as 1 (parseInt stops at
the space), and a full parseCollection of "%d [1 2]" succeeds with
indexes [1]. -/
theorem c7_counterexample :
    specBareNumeral (str "1 2") = false ∧
    specNM (str "1 2") = false ∧
    parsePart (str "1 2") = .ok [1] ∧
    parseCollectionDefault (str "%d [1 2]") = .ok ⟨[], [], 0, {1}⟩ := by
  refine ⟨by decide, by decide, by rfl, by rfl⟩

/-- Instantiation of the C7 theorem on the ranges capture "1-, 12": the
part "1-" has an empty hyphen side and is rejected, the part "12" is
accepted as 12. -/
theorem c7_witness :
    (∃ e, parsePart (str "1-") = .error e) ∧
    parsePart (str "12") = .ok [12] := by
  constructor
  · exact (c7_part_grammar_leniency (str "1-, 12") (str "1-")
      (by decide) (by decide)).1.mpr (by decide)
  · have h := (c7_part_grammar_leniency (str "1-, 12") (str "12")
      (by decide) (by decide)).2 (by decide)
    rw [h]; rfl

/-! ### Claim C3: round-trip through format and parseCollection -/

lemma natDigits_ne_nil (n : Nat) : natDigits n ≠ [] := by
  rw [natDigits_eq]
  by_cases h : n < 10
  · rw [if_pos h]; exact List.cons_ne_nil _ _
  · rw [if_neg h]
    intro he
    exact absurd (List.append_eq_nil.mp he).2 (List.cons_ne_nil _ _)

lemma digitChar_isDigit {k : Nat} (h : k < 10) :
    Char.isDigit (digitChar k) = true := by
  interval_cases k <;> decide

lemma natDigits_all_digits (n : Nat) : (natDigits n).all Char.isDigit = true := by
  induction n using Nat.strong_induction_on with
  | _ n ih =>
    rw [natDigits_eq]
    by_cases h : n < 10
    · rw [if_pos h]
      simp [digitChar_isDigit h]
    · rw [if_neg h, List.all_append]
      rw [ih (n / 10) (Nat.div_lt_self (by omega) (by omega))]
      simp [digitChar_isDigit (Nat.mod_lt n (by omega))]

lemma digitVal_digitChar {k : Nat} (h : k < 10) : digitVal (digitChar k) = k := by
  interval_cases k <;> decide

lemma digitsToNat_snoc (xs : List Char) (c : Char) :
    digitsToNat (xs ++ [c]) = 10 * digitsToNat xs + digitVal c := by
  unfold digitsToNat
  rw [List.foldl_append]
  simp only [List.foldl_cons, List.foldl_nil]
  omega

lemma digitsToNat_natDigits (n : Nat) : digitsToNat (natDigits n) = n := by
  induction n using Nat.strong_induction_on with
  | _ n ih =>
    rw [natDigits_eq]
    by_cases h : n < 10
    · rw [if_pos h]
      have h1 : ([] : List Char) ++ [digitChar n] = [digitChar n] := rfl
      rw [← h1, digitsToNat_snoc, digitVal_digitChar h]
      have h0 : digitsToNat [] = 0 := rfl
      rw [h0]
      omega
    · rw [if_neg h, digitsToNat_snoc,
        ih (n / 10) (Nat.div_lt_self (by omega) (by omega)),
        digitVal_digitChar (Nat.mod_lt n (by omega))]
      omega

lemma jsString_nonneg {i : Int} (h : 0 ≤ i) : jsString i = natDigits i.toNat := by
  unfold jsString
  rw [if_neg (not_lt.mpr h)]

lemma jsString_all_digits {i : Int} (h : 0 ≤ i) :
    (jsString i).all Char.isDigit = true := by
  rw [jsString_nonneg h]; exact natDigits_all_digits _

lemma jsString_ne_nil {i : Int} (h : 0 ≤ i) : jsString i ≠ [] := by
  rw [jsString_nonneg h]; exact natDigits_ne_nil _

lemma digitsToNat_jsString {i : Int} (h : 0 ≤ i) :
    (digitsToNat (jsString i) : Int) = i := by
  rw [jsString_nonneg h, digitsToNat_natDigits]
  exact Int.toNat_of_nonneg h

lemma isDigit_not_space {ch : Char} (h : Char.isDigit ch = true) :
    isJsSpace ch = false := by
  cases hsp : isJsSpace ch with
  | false => rfl
  | true =>
    exfalso
    unfold isJsSpace at hsp
    simp only [Bool.or_eq_true, decide_eq_true_eq] at hsp
    rcases hsp with (((((((((h1 | h1) | h1) | h1) | h1) | h1) | h1) | h1) | h1) | h1) <;>
      (subst h1; exact absurd h (by decide))

lemma isDigit_not_lineterm {ch : Char} (h : Char.isDigit ch = true) :
    isLineTerm ch = false := by
  cases hlt : isLineTerm ch with
  | false => rfl
  | true =>
    exfalso
    unfold isLineTerm at hlt
    simp only [Bool.or_eq_true, decide_eq_true_eq] at hlt
    rcases hlt with ((h1 | h1) | h1) | h1 <;>
      (subst h1; exact absurd h (by decide))

lemma isDigit_classChar {ch : Char} (h : Char.isDigit ch = true) :
    isClassChar ch = true := by
  unfold isClassChar
  rw [h]
  rfl

lemma isDigit_ne {ch : Char} (h : Char.isDigit ch = true) :
    ch ≠ '-' ∧ ch ≠ ',' ∧ ch ≠ '[' ∧ ch ≠ ']' ∧ ch ≠ ' ' ∧ ch ≠ 'd'
      ∧ ch ≠ lbrace ∧ ch ≠ '%' :=
  ⟨fun he => by subst he; exact absurd h (by decide),
   fun he => by subst he; exact absurd h (by decide),
   fun he => by subst he; exact absurd h (by decide),
   fun he => by subst he; exact absurd h (by decide),
   fun he => by subst he; exact absurd h (by decide),
   fun he => by subst he; exact absurd h (by decide),
   fun he => by subst he; exact absurd h (by decide),
   fun he => by subst he; exact absurd h (by decide)⟩

lemma takeWhile_stop {p : Char → Bool} {w : List Char} (hw : w.all p = true)
    {ch : Char} (hch : p ch = false) (suf : List Char) :
    (w ++ ch :: suf).takeWhile p = w := by
  induction w with
  | nil => simp [List.takeWhile_cons, hch]
  | cons x t ih =>
    rw [List.all_cons, Bool.and_eq_true] at hw
    rw [List.cons_append, List.takeWhile_cons, if_pos hw.1, ih hw.2]

lemma takeWhile_all {p : Char → Bool} {l : List Char} (h : l.all p = true) :
    l.takeWhile p = l := by
  induction l with
  | nil => rfl
  | cons a t ih =>
    rw [List.all_cons, Bool.and_eq_true] at h
    rw [List.takeWhile_cons, if_pos h.1, ih h.2]

lemma drop_takeWhile {p : Char → Bool} (l : List Char) :
    l.drop (l.takeWhile p).length = l.dropWhile p := by
  induction l with
  | nil => rfl
  | cons a t ih =>
    rw [List.takeWhile_cons, List.dropWhile_cons]
    by_cases h : p a
    · rw [if_pos h, if_pos h, List.length_cons, List.drop_succ_cons, ih]
    · rw [if_neg h, if_neg h, List.length_nil, List.drop_zero]

lemma noEdgeSpace_of_all {l : List Char} (h : ∀ c ∈ l, isJsSpace c = false) :
    noEdgeSpace l := by
  constructor
  · intro c hc
    exact h c (List.mem_of_mem_head? (Option.mem_def.mpr hc))
  · intro c hc
    exact h c (List.mem_of_mem_getLast? (Option.mem_def.mpr hc))

lemma all_not_space {l : List Char} (h : ∀ c ∈ l, isJsSpace c = false) :
    l.dropWhile isJsSpace = l :=
  dropWhile_eq_self_of_head (fun c hc =>
    h c (List.mem_of_mem_head? (Option.mem_def.mpr hc)))

/-- The alphabet of a rendered range string: digits and the hyphen. -/
def GoodStr (x : List Char) : Prop :=
  x ≠ [] ∧ ∀ ch ∈ x, Char.isDigit ch = true ∨ ch = '-'

lemma goodStr_no_space {x : List Char} (h : GoodStr x) :
    ∀ c ∈ x, isJsSpace c = false := by
  intro c hc
  rcases h.2 c hc with hd | hd
  · exact isDigit_not_space hd
  · subst hd; decide

lemma goodStr_trim {x : List Char} (h : GoodStr x) : jsTrim x = x :=
  jsTrim_eq_self (noEdgeSpace_of_all (goodStr_no_space h))

lemma goodStr_no_comma {x : List Char} (h : GoodStr x) : ',' ∉ x := by
  intro hc
  rcases h.2 ',' hc with hd | hd
  · exact absurd hd (by decide)
  · cases hd

lemma splitCharF_all_no_sep {sep : Char} :
    ∀ {y cur : List Char}, sep ∉ y →
      splitCharF sep y cur = [cur.reverse ++ y] := by
  intro y
  induction y with
  | nil => intro cur _; simp [splitCharF]
  | cons a t ih =>
    intro cur hy
    have ha : ¬(a = sep) := fun h => hy (h ▸ List.mem_cons_self _ _)
    simp only [splitCharF, if_neg ha]
    rw [ih (fun h => hy (List.mem_cons_of_mem _ h))]
    simp

lemma splitChar_all_no_sep {sep : Char} {y : List Char} (hy : sep ∉ y) :
    splitChar sep y = [y] := by
  unfold splitChar
  rw [splitCharF_all_no_sep hy]
  rfl

lemma splitCharF_sep_split {sep : Char} :
    ∀ {x y cur : List Char}, sep ∉ x →
      splitCharF sep (x ++ sep :: y) cur
        = (cur.reverse ++ x) :: splitCharF sep y [] := by
  intro x
  induction x with
  | nil =>
    intro y cur _
    simp [splitCharF]
  | cons a t ih =>
    intro y cur hx
    have ha : ¬(a = sep) := fun h => hx (h ▸ List.mem_cons_self _ _)
    rw [List.cons_append]
    simp only [splitCharF, if_neg ha]
    rw [ih (fun h => hx (List.mem_cons_of_mem _ h))]
    simp

lemma splitChar_sep_split {sep : Char} {x y : List Char} (hx : sep ∉ x) :
    splitChar sep (x ++ sep :: y) = x :: splitChar sep y := by
  unfold splitChar
  rw [splitCharF_sep_split hx]
  rfl

lemma jsParseIntDigits_digits {x : List Char} (hne : x ≠ [])
    (hdig : x.all Char.isDigit = true) :
    jsParseIntDigits x = some (digitsToNat x) := by
  unfold jsParseIntDigits
  dsimp only
  have hns : ∀ c ∈ x, isJsSpace c = false := fun c hc =>
    isDigit_not_space (List.all_eq_true.mp hdig c hc)
  rw [all_not_space hns, takeWhile_all hdig, if_neg hne]

lemma range2_intList {a b : Int} (h : a ≤ b) :
    range2 a (b + 1) = .ok (intList a b) := by
  unfold range2
  rw [if_pos (show a ≤ b + 1 by omega)]
  unfold range3
  dsimp only
  rw [if_neg (by omega), if_neg (by omega), if_pos (by omega)]
  rfl

lemma parsePart_single {i : Int} (h : 0 ≤ i) :
    parsePart (jsString i) = .ok [i] := by
  have hdig := jsString_all_digits h
  have hne := jsString_ne_nil h
  have hnos : ∀ c ∈ jsString i, isJsSpace c = false := fun c hc =>
    isDigit_not_space (List.all_eq_true.mp hdig c hc)
  have hnh : '-' ∉ jsString i := fun hc =>
    (isDigit_ne (List.all_eq_true.mp hdig '-' hc)).1 rfl
  unfold parsePart
  dsimp only
  rw [jsTrim_eq_self (noEdgeSpace_of_all hnos)]
  rw [if_neg (fun hc => hnh (List.elem_iff.mp hc))]
  rw [jsParseIntDigits_digits hne hdig]
  dsimp only
  rw [digitsToNat_jsString h]

lemma parsePart_range {a b : Int} (ha : 0 ≤ a) (hab : a ≤ b) :
    parsePart (jsString a ++ '-' :: jsString b) = .ok (intList a b) := by
  have hb : 0 ≤ b := le_trans ha hab
  have hdiga := jsString_all_digits ha
  have hdigb := jsString_all_digits hb
  have hnha : '-' ∉ jsString a := fun hc =>
    (isDigit_ne (List.all_eq_true.mp hdiga '-' hc)).1 rfl
  have hnhb : '-' ∉ jsString b := fun hc =>
    (isDigit_ne (List.all_eq_true.mp hdigb '-' hc)).1 rfl
  have hgood : ∀ c ∈ jsString a ++ '-' :: jsString b, isJsSpace c = false := by
    intro c hc
    rcases List.mem_append.mp hc with hc | hc
    · exact isDigit_not_space (List.all_eq_true.mp hdiga c hc)
    · rcases List.mem_cons.mp hc with rfl | hc
      · decide
      · exact isDigit_not_space (List.all_eq_true.mp hdigb c hc)
  have htrim : jsTrim (jsString a ++ '-' :: jsString b)
      = jsString a ++ '-' :: jsString b :=
    jsTrim_eq_self (noEdgeSpace_of_all hgood)
  have hmem : '-' ∈ jsString a ++ '-' :: jsString b :=
    List.mem_append.mpr (Or.inr (List.mem_cons_self _ _))
  unfold parsePart
  dsimp only
  rw [htrim, if_pos (List.elem_iff.mpr hmem)]
  unfold parseRange
  dsimp only
  rw [htrim, splitChar_sep_split hnha, splitChar_all_no_sep hnhb]
  rw [if_neg (by
    rintro (h2 | h2)
    · exact h2 rfl
    · simp only [List.any_cons, List.any_nil, Bool.or_false, Bool.or_eq_true,
        decide_eq_true_eq] at h2
      rcases h2 with h2 | h2
      · exact jsString_ne_nil ha h2
      · exact jsString_ne_nil hb h2)]
  simp only [List.drop_succ_cons, List.drop_zero, List.head?_cons, Option.getD_some]
  rw [jsParseIntDigits_digits (jsString_ne_nil ha) hdiga,
    jsParseIntDigits_digits (jsString_ne_nil hb) hdigb]
  dsimp only
  rw [digitsToNat_jsString ha, digitsToNat_jsString hb]
  exact range2_intList hab

lemma jsString_ne_nil_any (i : Int) : jsString i ≠ [] := by
  unfold jsString
  by_cases h : i < 0
  · rw [if_pos h]; exact List.cons_ne_nil _ _
  · rw [if_neg h]; exact natDigits_ne_nil _

lemma rangeValue_empty {p : Collection} (h : p._indexes = ∅) :
    rangeValue p = [] := by
  unfold rangeValue
  rw [indexes_eq_nil.mpr h]
  rfl

lemma rangeValue_ne_nil {p : Collection} (h : p._indexes ≠ ∅) :
    rangeValue p ≠ [] := by
  have hnil : p.indexes ≠ [] := fun hx => h (indexes_eq_nil.mp hx)
  unfold rangeValue
  dsimp only
  by_cases h0 : p.indexes.length = 0
  · exact absurd (List.length_eq_zero.mp h0) hnil
  · rw [if_neg h0]
    by_cases h1 : p.indexes.length = 1
    · rw [if_pos h1]; exact jsString_ne_nil_any _
    · rw [if_neg h1]
      intro he
      exact absurd (List.append_eq_nil.mp he).2 (List.cons_ne_nil _ _)

lemma contiguous_indexes_run {p : Collection} (hcont : p.isContiguous = true)
    (hne : p._indexes ≠ ∅) :
    p.indexes = intList (p.indexes.head?.getD 0) (p.indexes.getLast?.getD 0) := by
  have hnil : p.indexes ≠ [] := fun hx => hne (indexes_eq_nil.mp hx)
  have hsortle := indexes_sorted_le p
  have hnd := indexes_nodup p
  have hsort : p.indexes.Sorted (· < ·) := sorted_lt_of_sorted_le_nodup hsortle hnd
  have ha0 : p.indexes.head?.getD 0 ∈ p.indexes := head_getD_mem hnil
  have hb0 : p.indexes.getLast?.getD 0 ∈ p.indexes := getLast_getD_mem hnil
  have hmem : ∀ x : Int, x ∈ p.indexes ↔
      p.indexes.head?.getD 0 ≤ x ∧ x ≤ p.indexes.getLast?.getD 0 := by
    intro x
    refine ⟨fun hx => ⟨sorted_head_le hsortle hx, sorted_le_getLast hsortle hx⟩, ?_⟩
    rintro ⟨h1, h2⟩
    by_cases hxa : x = p.indexes.head?.getD 0
    · rw [hxa]; exact ha0
    by_cases hxb : x = p.indexes.getLast?.getD 0
    · rw [hxb]; exact hb0
    have hlt1 : p.indexes.head?.getD 0 < x := lt_of_le_of_ne h1 (Ne.symm hxa)
    have hlt2 : x < p.indexes.getLast?.getD 0 := lt_of_le_of_ne h2 hxb
    unfold Collection.isContiguous at hcont
    by_cases hcard : p._indexes.card ≤ 1
    · exfalso
      have hlen := length_indexes p
      cases hLl : p.indexes with
      | nil => exact hnil hLl
      | cons v t =>
        cases t with
        | nil =>
          rw [hLl] at hlt1 hlt2
          simp only [List.head?_cons, Option.getD_some] at hlt1
          have hgl : ([v] : List Int).getLast?.getD 0 = v := rfl
          rw [hgl] at hlt2
          omega
        | cons w t2 =>
          rw [hLl] at hlen
          simp only [List.length_cons] at hlen
          omega
    · rw [if_neg hcard] at hcont
      dsimp only at hcont
      have hx : x ∈ intList (p.indexes.head?.getD 0 + 1)
          (p.indexes.getLast?.getD 0 - 1) :=
        mem_intList.mpr ⟨by omega, by omega⟩
      have hall := List.all_eq_true.mp hcont x hx
      rw [decide_eq_true_eq] at hall
      exact mem_indexes.mpr hall
  have hperm : List.Perm p.indexes
      (intList (p.indexes.head?.getD 0) (p.indexes.getLast?.getD 0)) :=
    (List.perm_ext_iff_of_nodup hnd (intList_sorted _ _).nodup).mpr
      (fun x => by rw [hmem x, mem_intList])
  exact List.eq_of_perm_of_sorted hperm hsort (intList_sorted _ _)

lemma piece_parse {p : Collection} (hcont : p.isContiguous = true)
    (hne : p._indexes ≠ ∅) (hnn : ∀ x ∈ p.indexes, 0 ≤ x) :
    parsePart (rangeValue p) = .ok p.indexes ∧ GoodStr (rangeValue p) := by
  have hnil : p.indexes ≠ [] := fun hx => hne (indexes_eq_nil.mp hx)
  have hrun := contiguous_indexes_run hcont hne
  have ha : 0 ≤ p.indexes.head?.getD 0 := hnn _ (head_getD_mem hnil)
  have hab : p.indexes.head?.getD 0 ≤ p.indexes.getLast?.getD 0 :=
    sorted_le_getLast (indexes_sorted_le p) (head_getD_mem hnil)
  unfold rangeValue
  dsimp only
  by_cases h0 : p.indexes.length = 0
  · exact absurd (List.length_eq_zero.mp h0) hnil
  rw [if_neg h0]
  by_cases h1 : p.indexes.length = 1
  · rw [if_pos h1]
    obtain ⟨v, hv⟩ := List.length_eq_one.mp h1
    have hhv : p.indexes.head?.getD 0 = v := by rw [hv]; rfl
    have hva : 0 ≤ v := by rw [← hhv]; exact ha
    constructor
    · rw [hhv, parsePart_single hva, hv]
    · rw [hhv]
      refine ⟨jsString_ne_nil hva, ?_⟩
      intro ch hch
      exact Or.inl (List.all_eq_true.mp (jsString_all_digits hva) ch hch)
  · rw [if_neg h1]
    have hb : 0 ≤ p.indexes.getLast?.getD 0 := le_trans ha hab
    constructor
    · rw [parsePart_range ha hab, ← hrun]
    · constructor
      · intro he
        exact absurd (List.append_eq_nil.mp he).1 (jsString_ne_nil ha)
      · intro ch hch
        rcases List.mem_append.mp hch with hc | hc
        · exact Or.inl (List.all_eq_true.mp (jsString_all_digits ha) ch hc)
        · rcases List.mem_cons.mp hc with rfl | hc
          · exact Or.inr rfl
          · exact Or.inl (List.all_eq_true.mp (jsString_all_digits hb) ch hc)

lemma joinComma_cons_prepend (ch : Char) (y : List Char) (t : List (List Char)) :
    joinComma ((ch :: y) :: t) = ch :: joinComma (y :: t) := by
  cases t with
  | nil => rfl
  | cons z t2 =>
    show ((ch :: y) ++ str ", ") ++ joinComma (z :: t2)
      = ch :: ((y ++ str ", ") ++ joinComma (z :: t2))
    simp

lemma splitChar_joinComma :
    ∀ (rest : List (List Char)) (x : List Char), ',' ∉ x →
      (∀ p ∈ rest, ',' ∉ p) →
      splitChar ',' (joinComma (x :: rest)) = x :: rest.map (fun p => ' ' :: p) := by
  intro rest
  induction rest with
  | nil =>
    intro x hx _
    show splitChar ',' x = [x]
    exact splitChar_all_no_sep hx
  | cons y t ih =>
    intro x hx hrest
    have hjoin : joinComma (x :: y :: t) = x ++ ',' :: (' ' :: joinComma (y :: t)) := by
      show (x ++ str ", ") ++ joinComma (y :: t) = _
      simp [str]
    rw [hjoin, splitChar_sep_split hx,
      show (' ' :: joinComma (y :: t)) = joinComma ((' ' :: y) :: t) from
        (joinComma_cons_prepend ' ' y t).symm,
      ih (' ' :: y)
        (fun hc => by
          rcases List.mem_cons.mp hc with h | h
          · exact absurd h (by decide)
          · exact hrest y (List.mem_cons_self _ _) h)
        (fun p hp => hrest p (List.mem_cons_of_mem _ hp))]
    rfl

lemma splitRanges_joinComma (rs : List (List Char)) (h : ∀ x ∈ rs, GoodStr x) :
    splitRanges (joinComma rs) = rs := by
  cases rs with
  | nil => rfl
  | cons x rest =>
    have hx := h x (List.mem_cons_self _ _)
    have hrest : ∀ p ∈ rest, ',' ∉ p := fun p hp =>
      goodStr_no_comma (h p (List.mem_cons_of_mem _ hp))
    unfold splitRanges
    rw [splitChar_joinComma rest x (goodStr_no_comma hx) hrest]
    rw [List.map_cons, goodStr_trim hx]
    have hmap : (rest.map (fun p => ' ' :: p)).map jsTrim = rest := by
      rw [List.map_map]
      have hpt : ∀ p ∈ rest, (jsTrim ∘ fun p => ' ' :: p) p = p := by
        intro p hp
        show jsTrim (' ' :: p) = p
        have hg := h p (List.mem_cons_of_mem _ hp)
        unfold jsTrim
        rw [List.dropWhile_cons, if_pos (by decide : isJsSpace ' ' = true)]
        rw [all_not_space (goodStr_no_space hg)]
        rw [dropWhile_eq_self_of_head (fun c hc => by
          rw [List.head?_reverse] at hc
          exact goodStr_no_space hg c
            (List.mem_of_mem_getLast? (Option.mem_def.mpr hc))),
          List.reverse_reverse]
      exact (List.map_congr_left hpt).trans (List.map_id _)
    rw [hmap]
    rw [List.filter_eq_self.mpr (fun a ha => decide_eq_true
      ((h a (by rw [← hmap] at ha; exact (by rwa [hmap] at ha))).1))]

lemma indexes_inj {p c : Collection} (h : p.indexes = c.indexes) :
    p._indexes = c._indexes := by
  ext x
  rw [← mem_indexes, ← mem_indexes, h]

lemma rangeValue_congr {p c : Collection} (h : p._indexes = c._indexes) :
    rangeValue p = rangeValue c := by
  unfold rangeValue
  have hpc : p.indexes = c.indexes := by
    unfold Collection.indexes
    rw [h]
  rw [hpc]

lemma sepRuns_ne_nil (hd tl : List Char) (pad : Nat) :
    ∀ (rest : List Int) (start prev : Int),
      sepRuns hd tl pad start prev rest ≠ [] := by
  intro rest
  induction rest with
  | nil => intro start prev; exact List.cons_ne_nil _ _
  | cons cur rest ih =>
    intro start prev
    show (if cur ≠ prev + 1 then _ :: _ else sepRuns hd tl pad start cur rest) ≠ []
    by_cases h : cur ≠ prev + 1
    · rw [if_pos h]; exact List.cons_ne_nil _ _
    · rw [if_neg h]; exact ih start cur

lemma separate_ne_nil (c : Collection) : c.separate ≠ [] := by
  unfold Collection.separate
  by_cases h0 : c._indexes.card = 0
  · rw [if_pos h0]; exact List.cons_ne_nil _ _
  · rw [if_neg h0]
    by_cases hcont : c.isContiguous = true
    · rw [if_pos hcont]; exact List.cons_ne_nil _ _
    · rw [if_neg hcont]
      cases hl : c.indexes with
      | nil =>
        exact absurd (Finset.card_eq_zero.mpr (indexes_eq_nil.mp hl)) h0
      | cons i0 rest =>
        dsimp only
        by_cases hr : rest = []
        · rw [if_pos hr]; exact List.cons_ne_nil _ _
        · rw [if_neg hr]; exact sepRuns_ne_nil _ _ _ _ _ _

lemma separate_single_indexes (c : Collection) :
    ∀ p, c.separate = [p] → p._indexes = c._indexes := by
  intro p hp
  unfold Collection.separate at hp
  by_cases h0 : c._indexes.card = 0
  · rw [if_pos h0] at hp
    simp only [List.cons.injEq, and_true] at hp
    rw [← hp]
    exact (Finset.card_eq_zero.mp h0).symm
  · rw [if_neg h0] at hp
    by_cases hcont : c.isContiguous = true
    · rw [if_pos hcont] at hp
      simp only [List.cons.injEq, and_true] at hp
      rw [← hp]
    · rw [if_neg hcont] at hp
      cases hl : c.indexes with
      | nil =>
        exact absurd (Finset.card_eq_zero.mpr (indexes_eq_nil.mp hl)) h0
      | cons i0 rest =>
        rw [hl] at hp
        dsimp only at hp
        by_cases hr : rest = []
        · rw [if_pos hr] at hp
          simp only [List.cons.injEq, and_true] at hp
          rw [← hp]
          subst hr
          ext x
          simp only [Finset.mem_singleton]
          rw [← mem_indexes, hl, List.mem_singleton]
        · rw [if_neg hr] at hp
          have hjoin := sepRuns_join c.head c.tail c.padding rest i0 i0 le_rfl
          rw [hp] at hjoin
          simp only [List.map_cons, List.map_nil, List.flatten_cons,
            List.flatten_nil, List.append_nil, intList_singleton] at hjoin
          exact indexes_inj (by rw [hjoin, List.singleton_append, ← hl])

lemma rangesValue_eq_join (c : Collection) :
    rangesValue c
      = joinComma ((c.separate.map rangeValue).filter (fun r => r ≠ [])) := by
  unfold rangesValue
  dsimp only
  by_cases hlen : 1 < c.separate.length
  · rw [if_pos hlen]
  · rw [if_neg hlen]
    cases hsep : c.separate with
    | nil => exact absurd hsep (separate_ne_nil c)
    | cons p t =>
      have ht : t = [] := by
        rw [hsep] at hlen
        cases t with
        | nil => rfl
        | cons a b =>
          exfalso
          simp only [List.length_cons] at hlen
          omega
      subst ht
      have hpi := separate_single_indexes c p hsep
      rw [List.map_cons, List.map_nil, rangeValue_congr hpi]

lemma separate_props (c : Collection) :
    ((c.separate.map Collection.indexes).flatten = c.indexes)
    ∧ (∀ p ∈ c.separate, p.isContiguous = true) := by
  unfold Collection.separate
  by_cases h0 : c._indexes.card = 0
  · rw [if_pos h0]
    have hemp : c._indexes = ∅ := Finset.card_eq_zero.mp h0
    refine ⟨?_, ?_⟩
    · simp only [List.map_cons, List.map_nil, List.flatten_cons, List.flatten_nil]
      rw [indexes_eq_sort, indexes_eq_sort]
      show Finset.sort (· ≤ ·) (∅ : Finset Int) ++ []
        = Finset.sort (· ≤ ·) c._indexes
      rw [hemp, Finset.sort_empty]
      rfl
    · intro p hp
      simp only [List.mem_singleton] at hp
      subst hp
      unfold Collection.isContiguous
      rw [if_pos (by simp)]
  · rw [if_neg h0]
    by_cases hcont : c.isContiguous = true
    · rw [if_pos hcont]
      refine ⟨by simp, ?_⟩
      intro p hp
      simp only [List.mem_singleton] at hp
      subst hp
      exact hcont
    · rw [if_neg hcont]
      cases hl : c.indexes with
      | nil => exact absurd (Finset.card_eq_zero.mpr (indexes_eq_nil.mp hl)) h0
      | cons i0 rest =>
        cases hrest : rest with
        | nil =>
          dsimp only
          rw [if_pos rfl]
          refine ⟨?_, ?_⟩
          · simp only [List.map_cons, List.map_nil, List.flatten_cons,
              List.flatten_nil]
            rw [indexes_eq_sort]
            show Finset.sort (· ≤ ·) ({i0} : Finset Int) ++ [] = [i0]
            rw [Finset.sort_singleton]
            rfl
          · intro p hp
            simp only [List.mem_singleton] at hp
            subst hp
            exact singleton_coll_contiguous _ _ _ _
        | cons c1 rest1 =>
          dsimp only
          rw [if_neg (by simp)]
          refine ⟨?_, ?_⟩
          · rw [sepRuns_join c.head c.tail c.padding _ i0 i0 le_rfl,
              intList_singleton]
            rfl
          · intro p hp
            exact (sepRuns_pieces c.head c.tail c.padding _ i0 i0 le_rfl p hp).1

lemma foldl_union_int (idxs : List Int) :
    ∀ (c : Collection) (A : Finset Int) (i : Int),
      i ∈ (idxs.map Item.int).foldl (fun a it => a ∪ itemIdxs c it) A ↔
        i ∈ A ∨ i ∈ idxs := by
  induction idxs with
  | nil => intro c A i; simp
  | cons n ns ih =>
    intro c A i
    rw [List.map_cons, List.foldl_cons]
    rw [ih c (A ∪ itemIdxs c (Item.int n)) i]
    show i ∈ A ∪ {n} ∨ i ∈ ns ↔ _
    simp only [Finset.mem_union, Finset.mem_singleton, List.mem_cons]
    tauto

lemma add_ints (c : Collection) (idxs : List Int) (hnn : ∀ n ∈ idxs, 0 ≤ n) :
    c.add (idxs.map Item.int)
      = ({c with _indexes :=
          (idxs.map Item.int).foldl (fun a it => a ∪ itemIdxs c it) c._indexes},
         none) := by
  unfold Collection.add
  rw [addLoop_ok c _ _ (by
    intro it hit
    rw [List.mem_map] at hit
    obtain ⟨n, hn, rfl⟩ := hit
    show decide (0 ≤ n) = true
    exact decide_eq_true (hnn n hn))]

lemma parseAddFold :
    ∀ (parts : List (List Char)) (acc : Collection),
      (∀ part ∈ parts, ∃ idxs : List Int,
        parsePart part = .ok idxs ∧ ∀ n ∈ idxs, 0 ≤ n) →
      ∃ c2 : Collection,
        (parts.foldlM addPart acc) = .ok c2
        ∧ ∀ i : Int, (i ∈ c2._indexes ↔ i ∈ acc._indexes ∨
            ∃ part ∈ parts, ∃ idxs : List Int,
              parsePart part = .ok idxs ∧ i ∈ idxs) := by
  intro parts
  induction parts with
  | nil =>
    intro acc _
    exact ⟨acc, rfl, fun i => by simp⟩
  | cons part rest ih =>
    intro acc hall
    obtain ⟨idxs, hp, hnn⟩ := hall part (List.mem_cons_self _ _)
    have hrest := fun q hq => hall q (List.mem_cons_of_mem _ hq)
    obtain ⟨c2, hc2, hchar⟩ := ih (Collection.mk acc.head acc.tail acc.padding
      ((idxs.map Item.int).foldl (fun a it => a ∪ itemIdxs acc it)
        acc._indexes)) hrest
    refine ⟨c2, ?_, ?_⟩
    · have hcons : ∀ (f : Collection → List Char → Except String Collection)
          (b : Collection),
          List.foldlM f b (part :: rest) = f b part >>= fun b2 =>
            List.foldlM f b2 rest := fun f b => rfl
      rw [hcons]
      unfold addPart
      rw [hp]
      dsimp only
      rw [add_ints acc idxs hnn]
      exact hc2
    · intro i
      rw [hchar i]
      have hproj : (Collection.mk acc.head acc.tail acc.padding
          ((idxs.map Item.int).foldl (fun a it => a ∪ itemIdxs acc it)
            acc._indexes))._indexes
          = (idxs.map Item.int).foldl (fun a it => a ∪ itemIdxs acc it)
            acc._indexes := rfl
      rw [hproj, foldl_union_int idxs acc acc._indexes i]
      constructor
      · rintro ((h | h) | h)
        · exact Or.inl h
        · exact Or.inr ⟨part, List.mem_cons_self _ _, idxs, hp, h⟩
        · obtain ⟨q, hq, idxs2, hq2, hi⟩ := h
          exact Or.inr ⟨q, List.mem_cons_of_mem _ hq, idxs2, hq2, hi⟩
      · rintro (h | ⟨q, hq, idxs2, hq2, hi⟩)
        · exact Or.inl (Or.inl h)
        · rcases List.mem_cons.mp hq with rfl | hq
          · rw [hp] at hq2
            injection hq2 with he
            subst he
            exact Or.inl (Or.inr hi)
          · exact Or.inr ⟨q, hq, idxs2, hq2, hi⟩

lemma classChar_facts {ch : Char} (h : isClassChar ch = true) :
    ch ≠ '[' ∧ ch ≠ ']' ∧ isLineTerm ch = false := by
  unfold isClassChar at h
  simp only [Bool.or_eq_true, decide_eq_true_eq] at h
  rcases h with ((hd | hd) | hd) | hd
  · exact ⟨(isDigit_ne hd).2.2.1, (isDigit_ne hd).2.2.2.1, isDigit_not_lineterm hd⟩
  · subst hd; exact ⟨by decide, by decide, by decide⟩
  · subst hd; exact ⟨by decide, by decide, by decide⟩
  · subst hd; exact ⟨by decide, by decide, by decide⟩

lemma matchHere_exists (H ds T R : List Char)
    (hH : ∀ ch ∈ H, isLineTerm ch = false)
    (hds : ds.all Char.isDigit = true)
    (hT : ∀ ch ∈ T, isLineTerm ch = false)
    (hR : R.all isClassChar = true) :
    matchHere (H ++ '%' :: (ds ++ 'd' :: (T ++ ' ' :: '[' :: (R ++ [']'])))) ≠ none := by
  intro hnone
  unfold matchHere at hnone
  have hk := findSome?_eq_none_iff.mp hnone H.length (mem_descRange.mpr (by
    simp only [List.length_append, List.length_cons]
    omega))
  rw [List.take_left, List.drop_left] at hk
  rw [if_pos (List.all_eq_true.mpr (fun ch hch => by rw [hH ch hch]; rfl))] at hk
  dsimp only at hk
  rw [if_pos rfl] at hk
  rw [takeWhile_stop hds (by decide : Char.isDigit 'd' = false) _] at hk
  rw [List.drop_left] at hk
  dsimp only at hk
  rw [if_pos rfl] at hk
  have hj := findSome?_eq_none_iff.mp hk T.length (mem_descRange.mpr (by
    simp only [List.length_append, List.length_cons]
    omega))
  rw [List.take_left, List.drop_left] at hj
  rw [if_pos (List.all_eq_true.mpr (fun ch hch => by rw [hT ch hch]; rfl))] at hj
  dsimp only at hj
  rw [if_pos ⟨rfl, rfl⟩] at hj
  rw [takeWhile_stop hR (by decide : isClassChar ']' = false) _] at hj
  rw [List.drop_left] at hj
  dsimp only at hj
  rw [if_pos rfl] at hj
  cases hj

lemma regexFindDefault_cons (a : Char) (rest : List Char) :
    regexFindDefault (a :: rest) = match matchHere (a :: rest) with
      | some caps => some caps
      | none => regexFindDefault rest := rfl

lemma regexFind_suffix : ∀ {s : List Char}
    {caps : List Char × List Char × List Char × Option (List Char)},
    regexFindDefault s = some caps → ∃ u, u <:+ s ∧ matchHere u = some caps := by
  intro s
  induction s with
  | nil =>
    intro caps h
    exact ⟨[], List.suffix_refl _, h⟩
  | cons a rest ih =>
    intro caps h
    rw [regexFindDefault_cons] at h
    cases hm : matchHere (a :: rest) with
    | some m =>
      rw [hm] at h
      dsimp only at h
      injection h with h2
      exact ⟨a :: rest, List.suffix_refl _, by rw [hm, h2]⟩
    | none =>
      rw [hm] at h
      dsimp only at h
      obtain ⟨u, hsuf, hmu⟩ := ih h
      exact ⟨u, hsuf.trans (List.suffix_cons a rest), hmu⟩

lemma regexFind_ne_none : ∀ (pre u : List Char), matchHere u ≠ none →
    regexFindDefault (pre ++ u) ≠ none := by
  intro pre
  induction pre with
  | nil =>
    intro u hm
    rw [List.nil_append]
    cases u with
    | nil => exact hm
    | cons a rest =>
      rw [regexFindDefault_cons]
      cases hm2 : matchHere (a :: rest) with
      | some m => exact fun h => Option.noConfusion h
      | none => exact absurd hm2 hm
  | cons a pre ih =>
    intro u hm
    rw [List.cons_append, regexFindDefault_cons]
    cases hm2 : matchHere (a :: (pre ++ u)) with
    | some m => exact fun h => Option.noConfusion h
    | none =>
      dsimp only
      exact ih u hm

lemma matchHere_caps {u : List Char}
    {caps : List Char × List Char × List Char × Option (List Char)}
    (h : matchHere u = some caps) :
    ∃ a d t g w2,
      u = a ++ '%' :: (d ++ 'd' :: (t ++ ' ' :: '[' :: (g ++ ']' :: w2)))
      ∧ g.all isClassChar = true
      ∧ caps.2.2.2 = (if g = [] then none else some g) := by
  unfold matchHere at h
  obtain ⟨k, hk, hfk⟩ := List.exists_of_findSome?_eq_some h
  by_cases hterm : (u.take k).all (fun c => !(isLineTerm c)) = true
  case neg => rw [if_neg hterm] at hfk; cases hfk
  rw [if_pos hterm] at hfk
  split at hfk
  case _ c0 b1 heq =>
    by_cases hc0 : c0 = '%'
    case neg => rw [if_neg hc0] at hfk; cases hfk
    rw [if_pos hc0] at hfk
    subst hc0
    split at hfk
    case _ c1 v heq2 =>
      by_cases hc1 : c1 = 'd'
      case neg => rw [if_neg hc1] at hfk; cases hfk
      rw [if_pos hc1] at hfk
      subst hc1
      obtain ⟨j, hj, hfj⟩ := List.exists_of_findSome?_eq_some hfk
      by_cases hterm2 : (v.take j).all (fun c => !(isLineTerm c)) = true
      case neg => rw [if_neg hterm2] at hfj; cases hfj
      rw [if_pos hterm2] at hfj
      split at hfj
      case _ c2 c3 w1 heq3 =>
        by_cases hc23 : c2 = ' ' ∧ c3 = '['
        case neg => rw [if_neg hc23] at hfj; cases hfj
        rw [if_pos hc23] at hfj
        obtain ⟨rfl, rfl⟩ := hc23
        split at hfj
        case _ c4 rest2 heq4 =>
          by_cases hc4 : c4 = ']'
          case neg => rw [if_neg hc4] at hfj; cases hfj
          rw [if_pos hc4] at hfj
          subst hc4
          injection hfj with hcaps
          have h2 : b1 = b1.takeWhile Char.isDigit ++ 'd' :: v := by
            rw [drop_takeWhile] at heq2
            rw [← heq2]
            exact (List.takeWhile_append_dropWhile _ _).symm
          have h3 : v = v.take j ++ ' ' :: '[' :: w1 := by
            rw [← heq3]
            exact (List.take_append_drop j v).symm
          have h4 : w1 = w1.takeWhile isClassChar ++ ']' :: rest2 := by
            rw [drop_takeWhile] at heq4
            rw [← heq4]
            exact (List.takeWhile_append_dropWhile _ _).symm
          refine ⟨u.take k, b1.takeWhile Char.isDigit, v.take j,
            w1.takeWhile isClassChar, rest2, ?_, ?_, ?_⟩
          · calc u = u.take k ++ u.drop k := (List.take_append_drop k u).symm
              _ = u.take k ++ '%' :: b1 := by rw [heq]
              _ = u.take k ++ '%' :: (b1.takeWhile Char.isDigit ++ 'd' :: v) := by
                  conv_lhs => rw [h2]
              _ = u.take k ++ '%' :: (b1.takeWhile Char.isDigit
                    ++ 'd' :: (v.take j ++ ' ' :: '[' :: w1)) := by
                  conv_lhs => rw [h3]
              _ = u.take k ++ '%' :: (b1.takeWhile Char.isDigit
                    ++ 'd' :: (v.take j ++ ' ' :: '[' ::
                      (w1.takeWhile isClassChar ++ ']' :: rest2))) := by
                  conv_lhs => rw [h4]
          · rw [List.all_eq_true]
            intro x hx
            exact List.mem_takeWhile_imp hx
          · rw [← hcaps]
        case _ => exact Option.noConfusion hfj
      case _ => exact Option.noConfusion hfj
    case _ => exact Option.noConfusion hfk
  case _ => exact Option.noConfusion hfk

lemma padStrValue_decomp (pad : Nat) :
    ∃ ds, padStrValue pad = '%' :: (ds ++ ['d']) ∧ ds.all Char.isDigit = true := by
  unfold padStrValue
  by_cases h : pad = 0
  · rw [if_pos h]
    exact ⟨[], rfl, rfl⟩
  · rw [if_neg h]
    refine ⟨'0' :: natDigits pad, ?_, ?_⟩
    · show str "%0" ++ natDigits pad ++ str "d" = _
      simp [str]
    · rw [List.all_cons, natDigits_all_digits]
      rfl

lemma joinComma_chars : ∀ (rs : List (List Char)) (ch : Char),
    ch ∈ joinComma rs → (∃ x ∈ rs, ch ∈ x) ∨ ch = ',' ∨ ch = ' ' := by
  intro rs
  induction rs with
  | nil => intro ch hch; cases hch
  | cons x t ih =>
    intro ch hch
    cases t with
    | nil => exact Or.inl ⟨x, List.mem_cons_self _ _, hch⟩
    | cons y t2 =>
      have hj : joinComma (x :: y :: t2) = (x ++ str ", ") ++ joinComma (y :: t2) := rfl
      rw [hj] at hch
      rcases List.mem_append.mp hch with h | h
      · rcases List.mem_append.mp h with h | h
        · exact Or.inl ⟨x, List.mem_cons_self _ _, h⟩
        · rcases List.mem_cons.mp h with rfl | h
          · exact Or.inr (Or.inl rfl)
          · rcases List.mem_cons.mp h with rfl | h
            · exact Or.inr (Or.inr rfl)
            · cases h
      · rcases ih ch h with ⟨z, hz, hcz⟩ | h
        · exact Or.inl ⟨z, List.mem_cons_of_mem _ hz, hcz⟩
        · exact Or.inr h

lemma joinComma_ne_nil {rs : List (List Char)} {x : List Char} (hx : x ∈ rs)
    (hall : ∀ y ∈ rs, y ≠ []) : joinComma rs ≠ [] := by
  cases rs with
  | nil => cases hx
  | cons y t =>
    cases t with
    | nil => exact hall y (List.mem_cons_self _ _)
    | cons z t2 =>
      show (y ++ str ", ") ++ joinComma (z :: t2) ≠ []
      intro he
      have h1 := (List.append_eq_nil.mp he).1
      have h2 := (List.append_eq_nil.mp h1).2
      exact absurd h2 (by decide)

lemma append_sep_unique {sep : Char} : ∀ {X Y X2 Y2 : List Char},
    X ++ sep :: Y = X2 ++ sep :: Y2 → sep ∉ X → sep ∉ X2 →
    X = X2 ∧ Y = Y2 := by
  intro X
  induction X with
  | nil =>
    intro Y X2 Y2 h hX hX2
    cases X2 with
    | nil =>
      rw [List.nil_append, List.nil_append] at h
      injection h with _ h2
      exact ⟨rfl, h2⟩
    | cons b X2t =>
      rw [List.nil_append, List.cons_append] at h
      injection h with h1 h2
      exact absurd (by rw [← h1]; exact List.mem_cons_self _ _) hX2
  | cons a Xt ih =>
    intro Y X2 Y2 h hX hX2
    cases X2 with
    | nil =>
      rw [List.cons_append, List.nil_append] at h
      injection h with h1 h2
      exact absurd (by rw [h1]; exact List.mem_cons_self _ _) hX
    | cons b X2t =>
      rw [List.cons_append, List.cons_append] at h
      injection h with h1 h2
      subst h1
      obtain ⟨hXe, hYe⟩ := ih h2 (fun hm => hX (List.mem_cons_of_mem _ hm))
        (fun hm => hX2 (List.mem_cons_of_mem _ hm))
      exact ⟨by rw [hXe], hYe⟩

lemma format_default_eq (c : Collection) :
    c.format (str "{head}{padding}{tail} [{ranges}]")
      = c.head ++ (padStrValue c.padding ++ (c.tail
          ++ (' ' :: '[' :: (rangesValue c ++ [']'])))) := by
  have hpat : str "{head}{padding}{tail} [{ranges}]"
      = lbrace :: (str "head" ++ rbrace ::
          (lbrace :: (str "padding" ++ rbrace ::
            (lbrace :: (str "tail" ++ rbrace ::
              (str " [" ++ lbrace :: (str "ranges" ++ rbrace :: str "]"))))))) := by
    decide
  unfold Collection.format
  rw [hpat]
  rw [replaceScan_ph (by decide) (by decide)]
  rw [replaceScan_ph (by decide) (by decide)]
  rw [replaceScan_ph (by decide) (by decide)]
  rw [replaceScan_literal (by decide) _ _]
  rw [replaceScan_ph (by decide) (by decide)]
  rw [replaceScan_id (by decide) _]
  have lh : formatLookup c (toLowerStr (lbrace :: (str "head" ++ rbrace ::
      (lbrace :: (str "padding" ++ rbrace ::
        (lbrace :: (str "tail" ++ rbrace ::
          (str " [" ++ lbrace :: (str "ranges" ++ rbrace :: str "]")))))))))
      (str "head") = some c.head := rfl
  have lp : formatLookup c (toLowerStr (lbrace :: (str "head" ++ rbrace ::
      (lbrace :: (str "padding" ++ rbrace ::
        (lbrace :: (str "tail" ++ rbrace ::
          (str " [" ++ lbrace :: (str "ranges" ++ rbrace :: str "]")))))))))
      (str "padding") = some (padStrValue c.padding) := rfl
  have lt : formatLookup c (toLowerStr (lbrace :: (str "head" ++ rbrace ::
      (lbrace :: (str "padding" ++ rbrace ::
        (lbrace :: (str "tail" ++ rbrace ::
          (str " [" ++ lbrace :: (str "ranges" ++ rbrace :: str "]")))))))))
      (str "tail") = some c.tail := rfl
  have lr : formatLookup c (toLowerStr (lbrace :: (str "head" ++ rbrace ::
      (lbrace :: (str "padding" ++ rbrace ::
        (lbrace :: (str "tail" ++ rbrace ::
          (str " [" ++ lbrace :: (str "ranges" ++ rbrace :: str "]")))))))))
      (str "ranges") = some (rangesValue c) := rfl
  rw [lh, lp, lt, lr]
  rfl

/-- C3: round-trip of the index set through format and parseCollection
with the default pattern.  Amended statement: besides the claim's own
premise that head and tail avoid the literal bracket and space
delimiters, the head and tail must contain no line terminator
characters, because the rendered head and tail dot-atoms cannot match
them; the collection is assumed well-formed (non-negative indexes, the
constructor invariant).  Under these premises parsing the formatted
string succeeds and returns a collection with the same indexes array. -/
theorem c3_format_parse_roundtrip (c : Collection) (hnn : Collection.Nonneg c)
    (hHead : ∀ ch ∈ c.head, ch ≠ '[' ∧ ch ≠ ']' ∧ ch ≠ ' '
      ∧ isLineTerm ch = false)
    (hTail : ∀ ch ∈ c.tail, ch ≠ '[' ∧ ch ≠ ']' ∧ ch ≠ ' '
      ∧ isLineTerm ch = false) :
    ∃ c2, parseCollectionDefault
        (c.format (str "{head}{padding}{tail} [{ranges}]")) = .ok c2
      ∧ c2.indexes = c.indexes := by
  obtain ⟨ds, hds_eq, hds⟩ := padStrValue_decomp c.padding
  have hsep := separate_props c
  have hnnl : ∀ p ∈ c.separate, ∀ x ∈ p.indexes, 0 ≤ x := by
    intro p hp x hx
    have hxf : x ∈ (c.separate.map Collection.indexes).flatten :=
      List.mem_flatten.mpr ⟨p.indexes, List.mem_map_of_mem _ hp, hx⟩
    rw [hsep.1] at hxf
    exact hnn x (mem_indexes.mp hxf)
  have hparts : ∀ part ∈ (c.separate.map rangeValue).filter (fun r => r ≠ []),
      ∃ p ∈ c.separate, rangeValue p = part ∧ p._indexes ≠ ∅ := by
    intro part hpart
    rw [List.mem_filter] at hpart
    obtain ⟨hmem2, hne2⟩ := hpart
    rw [List.mem_map] at hmem2
    obtain ⟨p, hp, hrv⟩ := hmem2
    refine ⟨p, hp, hrv, ?_⟩
    intro hemp
    have hni : part ≠ [] := of_decide_eq_true hne2
    rw [← hrv] at hni
    exact hni (rangeValue_empty hemp)
  have hgoodparts : ∀ part ∈ (c.separate.map rangeValue).filter (fun r => r ≠ []),
      GoodStr part ∧ ∃ idxs, parsePart part = .ok idxs ∧ ∀ n ∈ idxs, 0 ≤ n := by
    intro part hpart
    obtain ⟨p, hp, hrv, hpne⟩ := hparts part hpart
    have hpiece := piece_parse (hsep.2 p hp) hpne (hnnl p hp)
    subst hrv
    exact ⟨hpiece.2, p.indexes, hpiece.1, hnnl p hp⟩
  have hRclass : (rangesValue c).all isClassChar = true := by
    rw [rangesValue_eq_join, List.all_eq_true]
    intro ch hch
    rcases joinComma_chars _ ch hch with ⟨x, hx, hcx⟩ | h | h
    · rcases ((hgoodparts x hx).1).2 ch hcx with hd | hd
      · exact isDigit_classChar hd
      · subst hd; decide
    · subst h; decide
    · subst h; decide
  have hnotin : ∀ ch ∈ rangesValue c,
      ch ≠ '[' ∧ ch ≠ ']' ∧ isLineTerm ch = false :=
    fun ch hch => classChar_facts (List.all_eq_true.mp hRclass ch hch)
  have hS : c.format (str "{head}{padding}{tail} [{ranges}]")
      = c.head ++ '%' :: (ds ++ 'd' :: (c.tail
          ++ ' ' :: '[' :: (rangesValue c ++ [']']))) := by
    rw [format_default_eq, hds_eq]
    simp [List.append_assoc]
  have hRnil_imp : rangesValue c = [] → c._indexes = ∅ := by
    intro hr
    by_contra hne2
    have hy : c.indexes ≠ [] := fun hx => hne2 (indexes_eq_nil.mp hx)
    cases hci : c.indexes with
    | nil => exact hy hci
    | cons i0 rest =>
      have hi0 : i0 ∈ (c.separate.map Collection.indexes).flatten := by
        rw [hsep.1, hci]
        exact List.mem_cons_self _ _
      obtain ⟨l2, hl2, hil⟩ := List.mem_flatten.mp hi0
      rw [List.mem_map] at hl2
      obtain ⟨p, hp, hpl⟩ := hl2
      subst hpl
      have hpne : p._indexes ≠ ∅ := by
        intro hemp
        rw [indexes_eq_nil.mpr hemp] at hil
        cases hil
      have hmem3 : rangeValue p ∈ (c.separate.map rangeValue).filter
          (fun r => r ≠ []) := by
        rw [List.mem_filter]
        exact ⟨List.mem_map_of_mem _ hp,
          decide_eq_true (rangeValue_ne_nil hpne)⟩
      rw [rangesValue_eq_join] at hr
      exact joinComma_ne_nil hmem3
        (fun y hy2 => of_decide_eq_true (List.mem_filter.mp hy2).2) hr
  have hex := matchHere_exists c.head ds c.tail (rangesValue c)
    (fun ch hch => (hHead ch hch).2.2.2) hds
    (fun ch hch => (hTail ch hch).2.2.2) hRclass
  have hfind : regexFindDefault
      (c.format (str "{head}{padding}{tail} [{ranges}]")) ≠ none := by
    rw [hS]
    exact regexFind_ne_none [] _ hex
  cases hcaps : regexFindDefault
      (c.format (str "{head}{padding}{tail} [{ranges}]")) with
  | none => exact absurd hcaps hfind
  | some caps =>
    obtain ⟨capH, capP, capT, capR⟩ := caps
    obtain ⟨u, hsuf, hmu⟩ := regexFind_suffix hcaps
    obtain ⟨a2, d2, t2, g2, w2, hu, hg2class, hg2⟩ := matchHere_caps hmu
    obtain ⟨pre, hpre⟩ := hsuf
    have hXnobr : '[' ∉ (c.head ++ '%' :: (ds ++ 'd' :: (c.tail ++ [' ']))) := by
      intro hmem3
      rcases List.mem_append.mp hmem3 with h | h
      · exact (hHead '[' h).1 rfl
      · rcases List.mem_cons.mp h with h | h
        · exact absurd h (by decide)
        · rcases List.mem_append.mp h with h | h
          · exact absurd ((isDigit_ne (List.all_eq_true.mp hds '[' h)).2.2.1) (by simp)
          · rcases List.mem_cons.mp h with h | h
            · exact absurd h (by decide)
            · rcases List.mem_append.mp h with h | h
              · exact (hTail '[' h).1 rfl
              · rcases List.mem_cons.mp h with h | h
                · exact absurd h (by decide)
                · cases h
    have hYnobr : '[' ∉ (rangesValue c ++ [']']) := by
      intro hmem3
      rcases List.mem_append.mp hmem3 with h | h
      · exact (hnotin '[' h).1 rfl
      · rcases List.mem_cons.mp h with h | h
        · exact absurd h (by decide)
        · cases h
    have hSsplit : c.format (str "{head}{padding}{tail} [{ranges}]")
        = (c.head ++ '%' :: (ds ++ 'd' :: (c.tail ++ [' '])))
            ++ '[' :: (rangesValue c ++ [']']) := by
      rw [hS]
      simp [List.append_assoc]
    have hSdec : (pre ++ (a2 ++ '%' :: (d2 ++ 'd' :: (t2 ++ [' ']))))
        ++ '[' :: (g2 ++ ']' :: w2)
        = c.format (str "{head}{padding}{tail} [{ranges}]") := by
      rw [← hpre, hu]
      simp [List.append_assoc]
    have hcount : (c.format (str "{head}{padding}{tail} [{ranges}]")).count '[' = 1 := by
      rw [hSsplit, List.count_append, List.count_cons]
      rw [List.count_eq_zero.mpr hXnobr, List.count_eq_zero.mpr hYnobr]
      simp
    have hWnobr : '[' ∉ (pre ++ (a2 ++ '%' :: (d2 ++ 'd' :: (t2 ++ [' '])))) := by
      rw [← hSdec, List.count_append] at hcount
      intro hmem4
      have h1 := List.count_pos_iff_mem.mpr hmem4
      have h2 := List.count_pos_iff_mem.mpr
        (List.mem_cons_self '[' (g2 ++ ']' :: w2))
      omega
    have heqYs : g2 ++ ']' :: w2 = rangesValue c ++ [']'] := by
      have hun := append_sep_unique (by rw [hSdec, hSsplit]) hWnobr hXnobr
      exact hun.2
    have hg2R : g2 = rangesValue c := by
      have e1 : (g2 ++ ']' :: w2).takeWhile isClassChar = g2 :=
        takeWhile_stop hg2class (by decide) _
      rw [heqYs] at e1
      have e2 : (rangesValue c ++ ']' :: []).takeWhile isClassChar = rangesValue c :=
        takeWhile_stop hRclass (by decide) _
      exact e1.symm.trans e2
    rw [hg2R] at hg2
    unfold parseCollectionDefault
    rw [hcaps]
    dsimp only at hg2 ⊢
    by_cases hRnil : rangesValue c = []
    · rw [if_pos hRnil] at hg2
      rw [hg2]
      refine ⟨_, rfl, ?_⟩
      have hemp := hRnil_imp hRnil
      have h1 : (Collection.mk capH capT
          (if capP = [] then 0 else digitsToNat capP) ∅).indexes = [] :=
        indexes_eq_nil.mpr rfl
      have h2 : c.indexes = [] := indexes_eq_nil.mpr hemp
      rw [h1, h2]
    · rw [if_neg hRnil] at hg2
      rw [hg2]
      dsimp only
      rw [rangesValue_eq_join,
        splitRanges_joinComma _ (fun x hx => (hgoodparts x hx).1)]
      obtain ⟨c2, hc2, hchar⟩ := parseAddFold _
        (Collection.mk capH capT (if capP = [] then 0 else digitsToNat capP) ∅)
        (fun part hpart => (hgoodparts part hpart).2)
      rw [hc2]
      refine ⟨c2, rfl, ?_⟩
      have hidx : c2._indexes = c._indexes := by
        ext i
        rw [hchar i]
        constructor
        · rintro (h | ⟨part, hpart, idxs, hpp, hi⟩)
          · exact absurd h (Finset.not_mem_empty i)
          · obtain ⟨p, hp, hrv, hpne⟩ := hparts part hpart
            have hpp2 := (piece_parse (hsep.2 p hp) hpne (hnnl p hp)).1
            rw [← hrv, hpp2] at hpp
            injection hpp with he
            subst he
            have hif : i ∈ (c.separate.map Collection.indexes).flatten :=
              List.mem_flatten.mpr ⟨p.indexes, List.mem_map_of_mem _ hp, hi⟩
            rw [hsep.1] at hif
            exact mem_indexes.mp hif
        · intro hi
          have hi2 : i ∈ c.indexes := mem_indexes.mpr hi
          rw [← hsep.1] at hi2
          obtain ⟨l2, hl2, hil⟩ := List.mem_flatten.mp hi2
          rw [List.mem_map] at hl2
          obtain ⟨p, hp, hpl⟩ := hl2
          subst hpl
          have hpne : p._indexes ≠ ∅ := by
            intro hemp
            rw [indexes_eq_nil.mpr hemp] at hil
            cases hil
          have hpp := (piece_parse (hsep.2 p hp) hpne (hnnl p hp)).1
          right
          refine ⟨rangeValue p, ?_, p.indexes, hpp, hil⟩
          rw [List.mem_filter]
          exact ⟨List.mem_map_of_mem _ hp,
            decide_eq_true (rangeValue_ne_nil hpne)⟩
      unfold Collection.indexes
      rw [hidx]

/-- C3 counterexample to the claim as stated: the tail avoids the
literal bracket and space delimiters yet contains a line feed, and the
formatted string fails to parse because the rendered tail dot-atoms of
the regex cannot match a line terminator, so the round-trip premise
needs the additional no-line-terminator condition. -/
theorem c3_counterexample :
    let c : Collection := ⟨[], 'x' :: '\n' :: ['y'], 0, ({1, 2} : Finset Int)⟩
    (∀ ch ∈ c.head, ch ≠ '[' ∧ ch ≠ ']' ∧ ch ≠ ' ') ∧
    (∀ ch ∈ c.tail, ch ≠ '[' ∧ ch ≠ ']' ∧ ch ≠ ' ') ∧
    parseCollectionDefault (c.format (str "{head}{padding}{tail} [{ranges}]"))
      = .error "String does not match pattern" := by
  exact ⟨by decide, by decide, by rfl⟩

/-- Instantiation of the C3 round-trip theorem at a concrete collection
with a gap in its indexes. -/
theorem c3_witness :
    ∃ c2, parseCollectionDefault
        ((⟨str "f", str ".x", 2, ({3, 5} : Finset Int)⟩ : Collection).format
          (str "{head}{padding}{tail} [{ranges}]")) = .ok c2
      ∧ c2.indexes
          = (⟨str "f", str ".x", 2, ({3, 5} : Finset Int)⟩ : Collection).indexes :=
  c3_format_parse_roundtrip ⟨str "f", str ".x", 2, ({3, 5} : Finset Int)⟩
    (by decide) (by decide) (by decide)
